import Mathlib

/-!
# SeaweedFS: volume export (`go/weed/export.go`) and `fs.cd` (`weed/shell/command_fs_cd.go`)

A shallow embedding of two commands of the repository.

* Go strings are Lean strings; the byte-level helpers that the code uses
  (`strings.HasSuffix`, `path.Ext`, `path.Join`, `path.Clean`, `path.Base`) only
  look at ASCII characters, so working on characters instead of UTF-8 bytes
  does not change their result.
* Machine integers are `Nat`/`Int`; conversions between widths are written out
  (`toInt64`, `toUint64`, `toUint32`) and the `int64` product of the export
  callback wraps explicitly (`mulInt64`).
* Functions of other packages (the `storage` package, `time`, `text/template`,
  `os`, the filer client of the shell) are parameters collected in `World`
  (export) and `ShellWorld` (shell).
* Stateful code passes its state explicitly.  `ExportState` holds the
  package-level variables of `export.go` together with ghost logs of the files
  opened and of the records handed to `walker`.
-/

namespace Seaweed

/-! ## Machine integers -/

/-- Values of Go type `uint32`. -/
abbrev Uint32 := Fin 4294967296

/-- Values of Go type `uint64`. -/
abbrev Uint64 := Fin 18446744073709551616

/-- Values of Go type `byte`. -/
abbrev Byte := Fin 256

/-- Go conversion `int64(x)`: two's complement wrap to 64 signed bits. -/
def toInt64 (x : Int) : Int := (x + 9223372036854775808) % 18446744073709551616 - 9223372036854775808

/-- Go conversion `uint64(x)`. -/
def toUint64 (x : Int) : Nat := (x % 18446744073709551616).toNat

/-- Go conversion `uint32(x)`. -/
def toUint32 (x : Int) : Nat := (x % 4294967296).toNat

/-- Go `int64` multiplication: the exact product wrapped to 64 signed bits. -/
def mulInt64 (a b : Int) : Int := toInt64 (a * b)

/-! ## Strings -/

/-- Go `strings.HasSuffix(s, suffix)`:
`len(s) >= len(suffix) && s[len(s)-len(suffix):] == suffix`. -/
def HasSuffix (s suffix : String) : Bool :=
  decide (s.data.length ≥ suffix.data.length) &&
    decide (s.data.drop (s.data.length - suffix.data.length) = suffix.data)

/-- Loop of Go `path.Ext`: the characters are visited from the last one
backwards (`rev` is what is still to visit, `acc` is `path[i+1:]`); the loop
stops at a slash with the empty result and at a dot with `path[i:]`. -/
def Ext.loop : List Char → List Char → List Char
  | [], _ => []
  | c :: rev, acc =>
    if c = '/' then []
    else if c = '.' then c :: acc
    else Ext.loop rev (c :: acc)

/-- Go `path.Ext(path)`: the suffix beginning at the final dot in the final
slash-separated element of `path`; empty if there is no dot. -/
def Ext (path : String) : String := ⟨Ext.loop path.data.reverse []⟩

/-- Inner loop of the `..` case of Go `path.Clean`: starting from the index `w`
of the last byte of the buffer, `for out.w > dotdot && out.index(out.w) != '/'`
moves `w` down; the result is the new length of the buffer. -/
def Clean.backtrack (out : List Char) (dotdot : Nat) : Nat → Nat
  | 0 => 0
  | w + 1 =>
    if dotdot < w + 1 ∧ out.getD (w + 1) '/' ≠ '/' then Clean.backtrack out dotdot w
    else w + 1

/-- The `..` case of Go `path.Clean`: drop the last element of the buffer when
there is one above `dotdot`; otherwise, when the path is not rooted, append
`..` (after a slash when the buffer is not empty) and move `dotdot` to the end
of the buffer; otherwise leave the buffer as it is. -/
def Clean.dotdotStep (rooted : Bool) (out : List Char) (dotdot : Nat) : List Char × Nat :=
  if out.length > dotdot then
    (out.take (Clean.backtrack out dotdot (out.length - 1)), dotdot)
  else if rooted = false then
    ((if out.length > 0 then out ++ ['/'] else out) ++ ['.', '.'],
      ((if out.length > 0 then out ++ ['/'] else out) ++ ['.', '.']).length)
  else (out, dotdot)

/-- The main loop of Go `path.Clean` on the bytes still to read; the state is
the buffer written so far and `dotdot`. One unit of fuel is one turn of the
loop; every turn reads at least one byte, so the length of the path is enough
fuel. The four cases are the four cases of the `switch`: an empty element, a
`.` element, a `..` element, and a real element, which is copied after a slash
when the buffer holds more than the root. -/
def Clean.loop (rooted : Bool) : Nat → List Char → List Char × Nat → List Char × Nat
  | 0, _, st => st
  | _ + 1, [], st => st
  | fuel + 1, c :: rest, st =>
    if c = '/' then Clean.loop rooted fuel rest st
    else if c = '.' ∧ (rest = [] ∨ rest.head? = some '/') then Clean.loop rooted fuel rest st
    else if c = '.' ∧ rest.head? = some '.' ∧ (rest.tail = [] ∨ rest.tail.head? = some '/') then
      Clean.loop rooted fuel rest.tail (Clean.dotdotStep rooted st.1 st.2)
    else
      Clean.loop rooted fuel (rest.dropWhile (fun x => x != '/'))
        ((if (rooted = true ∧ st.1.length ≠ 1) ∨ (rooted = false ∧ st.1.length ≠ 0)
            then st.1 ++ ['/'] else st.1) ++ c :: rest.takeWhile (fun x => x != '/'), st.2)

/-- The buffer of Go `path.Clean` when its loop ends: a rooted path starts with
the buffer `/`, one byte read and `dotdot = 1`, any other path with an empty
buffer. -/
def Clean.buf (path : List Char) : List Char :=
  if path.head? = some '/' then (Clean.loop true path.length path.tail (['/'], 1)).1
  else (Clean.loop false path.length path ([], 0)).1

/-- Go `path.Clean(path)`: the shortest path equivalent to `path` by lexical
processing; `.` for the empty path and for an empty buffer. -/
def Clean (path : String) : String :=
  if path = "" then "."
  else if Clean.buf path.data = [] then "."
  else ⟨Clean.buf path.data⟩

/-- Loop of Go `path.Join`: an element is appended, after a slash when the
buffer is not empty, unless the buffer and the element are both empty. -/
def Join.buf : List String → List Char → List Char
  | [], buf => buf
  | e :: rest, buf =>
    if buf.length > 0 ∨ e ≠ "" then
      Join.buf rest ((if buf.length > 0 then buf ++ ['/'] else buf) ++ e.data)
    else Join.buf rest buf

/-- Go `path.Join(elem...)`: the elements joined by slashes and cleaned; the
empty string when all elements are empty. -/
def Join (elem : List String) : String :=
  if (elem.map String.length).sum = 0 then ""
  else Clean ⟨Join.buf elem []⟩

/-- Go `path.Base(path)`: the last element of `path`, after trailing slashes are
removed; `.` for the empty path and `/` for a path of slashes only. -/
def Base (path : String) : String :=
  if path = "" then "."
  else
    let stripped := (path.data.reverse.dropWhile (fun x => x == '/')).reverse
    let last := (stripped.reverse.takeWhile (fun x => x != '/')).reverse
    if last = [] then "/" else ⟨last⟩

/-- Go `strconv.Itoa(i)`: `i` in decimal, with a leading minus sign when negative. -/
def Itoa (i : Int) : String :=
  if i < 0 then "-" ++ Nat.repr i.natAbs else Nat.repr i.natAbs

/-! ## `fs.cd` -/

/-- The shell options that `fs.cd` reads and writes (`commandEnv.option`);
`GrpcDialOption` stands for the fields that `fs.cd` does not touch. -/
structure ShellOptions where
  GrpcDialOption : String
  FilerHost : String
  FilerPort : Int
  Directory : String
  deriving DecidableEq, Repr

/-- The shell environment handed to every command. -/
structure commandEnv where
  option : ShellOptions
  deriving DecidableEq, Repr

/-- The four results of `commandEnv.parseUrl`. -/
structure ParsedUrl where
  filerServer : String
  filerPort : Int
  path : String
  err : Option String
  deriving DecidableEq, Repr

/-- Functions of the shell package that `fs.cd` calls and whose source is not
part of the embedding. They read the environment and do not write it. -/
structure ShellWorld where
  findInputDirectory : List String → String
  parseUrl : commandEnv → String → ParsedUrl
  checkDirectory : commandEnv → String → Int → String → Option String

/-- What `commandFsCd.Do` leaves behind: the returned error, the environment
and (ghost) the directory checks it issued. -/
structure CdResult where
  err : Option String
  env : commandEnv
  checks : List (String × Int × String)
  deriving DecidableEq, Repr

/-- Embedding of `commandFsCd.Do` (`command_fs_cd.go`, lines 32-59). -/
def commandFsCd.Do (w : ShellWorld) (args : List String) (env : commandEnv) : CdResult :=
  let input := w.findInputDirectory args
  let u := w.parseUrl env input
  match u.err with
  | some e => { err := some e, env := env, checks := [] }
  | none =>
    if u.path = "/" then
      { err := none
        env := { env with option := { env.option with
                  FilerHost := u.filerServer, FilerPort := u.filerPort, Directory := "/" } }
        checks := [] }
    else
      let err := w.checkDirectory env u.filerServer u.filerPort u.path
      let env1 : commandEnv :=
        if err = none then
          { env with option := { env.option with
              FilerHost := u.filerServer, FilerPort := u.filerPort, Directory := u.path } }
        else env
      { err := err, env := env1, checks := [(u.filerServer, u.filerPort, u.path)] }

/-! ## Data model of the export command -/

/-- A point in time as Go `time.Unix(sec, nsec)` builds it. -/
structure Time where
  sec : Int
  nsec : Int
  deriving DecidableEq, Repr

/-- Go `time.Unix(sec, nsec)` for `0 ≤ nsec < 1e9`, the only use in `export.go`. -/
def Time.Unix (sec nsec : Int) : Time := { sec := sec, nsec := nsec }

/-- Modelled from the spec: the needle record of the `storage` package, whose
source is not under `src/`; the fields are those `export.go` reads, with the
widths of section 3 of the specification. -/
structure Needle where
  Cookie : Uint32
  Id : Uint64
  Size : Uint32
  DataSize : Uint32
  Data : List Byte
  Flags : Byte
  Name : String
  Mime : String
  LastModified : Uint64
  deriving DecidableEq, Repr

/-- Modelled from the spec: flag bit `Gzipped(0x01)` of the needle flags byte. -/
def FlagGzip : Nat := 0x01

/-- Modelled from the spec: flag bit `HasLastModifiedDate(0x08)` of the needle flags byte. -/
def FlagHasLastModifiedDate : Nat := 0x08

/-- Modelled from the spec: `Needle.IsGzipped`, a pure test of the `Gzipped` bit. -/
def Needle.IsGzipped (n : Needle) : Bool := decide (n.Flags.val &&& FlagGzip > 0)

/-- Modelled from the spec: `Needle.HasLastModifiedDate`, a pure test of the
`HasLastModifiedDate` bit. -/
def Needle.HasLastModifiedDate (n : Needle) : Bool :=
  decide (n.Flags.val &&& FlagHasLastModifiedDate > 0)

/-- Modelled from the spec: an entry of the needle map, `(offset_units, size)`
for a key, both unsigned 32-bit. -/
structure NeedleValue where
  Key : Uint64
  Offset : Uint32
  Size : Uint32
  deriving DecidableEq, Repr

/-- Modelled from the spec: the in-memory needle map, seen through its lookup
`get(id) -> (offset, size) | absent`. -/
structure NeedleMap where
  Get : Uint64 → Option NeedleValue

/-- Modelled from the spec: layout version pinned by the superblock, a small
integer in {1, 2, 3}; the zero value is what an unset Go variable holds. -/
abbrev Version := Nat

/-- Modelled from the spec: `storage.Version1`. -/
def Version1 : Version := 1

/-- Modelled from the spec: what a scan of the data file meets, in file order:
the superblock version, the decoded records with their header offsets, and the
error (if any) that ends the scan after them. -/
structure VolumeScan where
  version : Version
  records : List (Needle × Int)
  tail : Option String

/-- The template parameters of `export.go` (lines 146-151). -/
structure nameParams where
  Name : String
  Id : Uint64
  Mime : String
  Key : String
  deriving DecidableEq, Repr

/-- A parsed `text/template`, identified by its source text. -/
structure Template where
  src : String
  deriving DecidableEq, Repr

/-- The fields of `tar.Header` that `export.go` sets. -/
structure TarHeader where
  Name : String
  Size : Int
  Mode : Int
  Uid : Int
  Gid : Int
  Typeflag : Char
  ModTime : Time
  AccessTime : Time
  ChangeTime : Time
  deriving DecidableEq, Repr

/-- Go `tar.TypeReg`. -/
def TypeReg : Char := '0'

/-- The zero value of `time.Time`: January 1 of year 1, 00:00:00 UTC. -/
def Time.zero : Time := { sec := -62135596800, nsec := 0 }

/-- The zero value of `tar.Header`. -/
def TarHeader.zero : TarHeader :=
  { Name := "", Size := 0, Mode := 0, Uid := 0, Gid := 0, Typeflag := Char.ofNat 0,
    ModTime := Time.zero, AccessTime := Time.zero, ChangeTime := Time.zero }

/-- A call made on the tar writer. -/
inductive TarCall where
  | WriteHeader (hdr : TarHeader)
  | Write (data : List Byte)
  deriving DecidableEq, Repr

/-- A `tar.Writer`: where it writes (`none` is standard output) and the calls
made on it so far. -/
structure TarWriter where
  file : Option String
  calls : List TarCall
  deriving DecidableEq, Repr

/-- The command-line flags of `export` (lines 38-43). -/
structure Flags where
  dir : String
  collection : String
  volumeId : Int
  dest : String
  format : String
  newer : String
  deriving DecidableEq, Repr

/-- Go constant `defaultFnFormat`. -/
def defaultFnFormat : String := "\x7b\x7b.Mime\x7d\x7d/\x7b\x7b.Id\x7d\x7d:\x7b\x7b.Name\x7d\x7d"

/-- Go constant `timeFormat`. -/
def timeFormat : String := "2006-01-02T15:04:05"

/-- The flag defaults of lines 38-43. -/
def Flags.default : Flags :=
  { dir := ".", collection := "", volumeId := -1, dest := "", format := defaultFnFormat,
    newer := "" }

/-- The package-level variables of `export.go` (lines 44-49), standard output,
and two ghost logs: the files opened so far and the `(needle, offset)` pairs
handed to `walker` so far. -/
structure ExportState where
  tarFh : Option TarWriter
  tarHeader : TarHeader
  fnTmpl : Option Template
  fnTmplBuf : String
  newerThanUnix : Int
  stdout : List String
  opened : List String
  walked : List (Needle × Int)

/-- The initial values of the package-level variables. -/
def ExportState.init : ExportState :=
  { tarFh := none, tarHeader := TarHeader.zero, fnTmpl := none, fnTmplBuf := "",
    newerThanUnix := -1, stdout := [], opened := [], walked := [] }

/-- What lies outside `export.go`: the standard library, the operating system
and the `storage` package. -/
structure World where
  /-- `time.ParseInLocation(timeFormat, s, localLocation)` followed by `.Unix()`. -/
  parseTime : String → Except String Int
  /-- `template.New("name").Parse(s)`. -/
  parseTemplate : String → Except String Template
  /-- `fnTmpl.Execute(fnTmplBuf, params)`: what reaches the buffer, and the error. -/
  execute : Template → nameParams → String × Option String
  /-- `os.Create(path)`: the error, if any. -/
  create : String → Option String
  /-- `time.Now()`. -/
  now : Time
  /-- `os.Getuid()`. -/
  uid : Int
  /-- `os.Getgid()`. -/
  gid : Int
  /-- `os.OpenFile(path, os.O_RDONLY, 0644)`: the error, if any. -/
  openFile : String → Option String
  /-- `storage.LoadNeedleMap(indexFile)`, by the path of the index file. -/
  loadNeedleMap : String → Except String NeedleMap
  /-- The data file that `storage.ScanVolumeFile(dir, collection, vid, ...)` walks:
  an error when it cannot be opened, else what the scan meets. -/
  volume : String → String → Nat → Except String VolumeScan
  /-- `storage.NewFileIdFromNeedle(vid, n).String()`. -/
  fileIdString : Nat → Needle → String
  /-- `tarFh.WriteHeader(&hdr)`: the error, if any. -/
  writeHeader : TarWriter → TarHeader → Option String
  /-- `tarFh.Write(data)`: the error, if any. -/
  write : TarWriter → List Byte → Option String
  /-- `fmt.Printf` of the listing line of `walker`. -/
  listingLine : String → String → Nat → Bool → String → String

/-- How `runExport` ends: it returns a boolean, or `glog.Fatalf` ends the process. -/
inductive Outcome where
  | returned (ok : Bool)
  | fatal (msg : String)
  deriving DecidableEq, Repr

/-! ## The export command -/

/-- Embedding of `walker` (`export.go`, lines 153-197). In tar mode with no
template set, Go would stop on a nil dereference; that is reported here as an
error (the state is not reachable from `runExport`, which sets the template
before the tar writer). -/
def walker (w : World) (vid : Nat) (n : Needle) (version : Version) (s : ExportState) :
    Option String × ExportState :=
  let key := w.fileIdString vid n
  match s.tarFh with
  | some tw =>
    match s.fnTmpl with
    | none => (some "nil template", s)
    | some t =>
      let r := w.execute t { Name := n.Name, Id := n.Id, Mime := n.Mime, Key := key }
      let s1 := { s with fnTmplBuf := r.1 }
      match r.2 with
      | some e => (some e, s1)
      | none =>
        let nm := s1.fnTmplBuf
        let nm := if n.IsGzipped && Ext nm != ".gz" then nm ++ ".gz" else nm
        let hdr := { s1.tarHeader with Name := nm, Size := (n.Data.length : Int) }
        let hdr := { hdr with
          ModTime := if n.HasLastModifiedDate then Time.Unix (toInt64 n.LastModified.val) 0
                     else Time.Unix 0 0 }
        let hdr := { hdr with ChangeTime := hdr.ModTime }
        let tw1 := { tw with calls := tw.calls ++ [TarCall.WriteHeader hdr] }
        let s2 := { s1 with tarHeader := hdr, tarFh := some tw1 }
        match w.writeHeader tw hdr with
        | some e => (some e, s2)
        | none =>
          let tw2 := { tw1 with calls := tw1.calls ++ [TarCall.Write n.Data] }
          (w.write tw1 n.Data, { s2 with tarFh := some tw2 })
  | none =>
    let size := if version = Version1 then n.Size else n.DataSize
    (none, { s with stdout := s.stdout ++
      [w.listingLine key n.Name size.val n.IsGzipped n.Mime] })

/-- Embedding of the needle callback that `runExport` passes to
`storage.ScanVolumeFile` (`export.go`, lines 121-139). The `glog` lines only
log and are left out. The ghost log `walked` receives `(n, offset)` at the
call of `walker`. -/
def runExport.onNeedle (w : World) (nm : NeedleMap) (vid : Nat) (version : Version)
    (n : Needle) (offset : Int) (s : ExportState) : Option String × ExportState :=
  match nm.Get n.Id with
  | some nv =>
    if nv.Size.val > 0 ∧ mulInt64 (toInt64 nv.Offset.val) 8 = offset then
      if s.newerThanUnix ≥ 0 ∧ n.HasLastModifiedDate = true ∧
          n.LastModified.val < toUint64 s.newerThanUnix then
        (none, s)
      else
        walker w vid n version { s with walked := s.walked ++ [(n, offset)] }
    else (none, s)
  | none => (none, s)

/-- Modelled from the spec: the needle loop of `storage.ScanVolumeFile`
(section 4.6, steps 2-3): each record, in file order, goes to the callback, and
an error returned by the callback ends the scan. -/
def scanNeedles {σ : Type} (visitNeedle : Needle → Int → σ → Option String × σ) :
    List (Needle × Int) → σ → Option String × σ
  | [], s => (none, s)
  | (n, offset) :: rest, s =>
    match visitNeedle n offset s with
    | (some e, s1) => (some e, s1)
    | (none, s1) => scanNeedles visitNeedle rest s1

/-- Modelled from the spec: `storage.ScanVolumeFile` (section 4.6): open the data
file, hand the superblock to its callback, then every record to the needle
callback; a callback error or a decoding error ends the scan with that error. The
scan state is the caller's state together with what the superblock callback
recorded. -/
def ScanVolumeFile {σ : Type} (vol : Except String VolumeScan)
    (visitSuperBlock : Version → σ → Option String × σ)
    (visitNeedle : Needle → Int → σ → Option String × σ) (s : σ) : Option String × σ :=
  match vol with
  | .error e => (some e, s)
  | .ok v =>
    match visitSuperBlock v.version s with
    | (some e, s1) => (some e, s1)
    | (none, s1) =>
      match scanNeedles visitNeedle v.records s1 with
      | (some e, s2) => (some e, s2)
      | (none, s2) => (v.tail, s2)

/-- Modelled from the spec: the name of the data file of a volume,
`<collection>_<id>.dat`, or `<id>.dat` when the collection is empty. -/
def dataFileName (collection : String) (vid : Nat) : String :=
  (if collection ≠ "" then collection ++ "_" ++ Nat.repr vid else Nat.repr vid) ++ ".dat"

/-- Lines 57-63 of `runExport`: the `-newer` argument. An error is the message
of the failed parse; otherwise `newerThanUnix` holds the Unix seconds of the
parsed time, or keeps its value when the flag is empty. -/
def runExport.parseNewer (w : World) (f : Flags) (s : ExportState) :
    Except String ExportState :=
  if f.newer ≠ "" then
    match w.parseTime f.newer with
    | .error e => .error e
    | .ok t => .ok { s with newerThanUnix := t }
  else .ok s

/-- Lines 69-96 of `runExport`: the `-o` argument. An error is the way the run
ends there (`return false`, or `glog.Fatalf` when the tar file cannot be
created); otherwise the state has the template, the tar writer and the tar
header set when `-o` is not empty, and is unchanged when it is. -/
def runExport.openDest (w : World) (f : Flags) (s1 : ExportState) :
    Except (Outcome × ExportState) ExportState :=
  if f.dest ≠ "" then
    if f.dest ≠ "-" ∧ ¬ (HasSuffix f.dest ".tar" = true) then
      .error (.returned false, { s1 with stdout := s1.stdout ++
        ["the output file " ++ f.dest ++ " should be \x27-\x27 or end with .tar"] })
    else
      match w.parseTemplate f.format with
      | .error e =>
        .error (.returned false, { s1 with fnTmpl := none, stdout := s1.stdout ++
          ["cannot parse format " ++ f.format ++ ": " ++ e] })
      | .ok t =>
        let s2 := { s1 with fnTmpl := some t }
        let r3 : Except (Outcome × ExportState) (Option String × ExportState) :=
          if f.dest = "-" then .ok (none, s2)
          else
            let s3 := { s2 with opened := s2.opened ++ [f.dest] }
            match w.create f.dest with
            | some e =>
              .error (.fatal ("cannot open output tar " ++ f.dest ++ ": " ++ e), s3)
            | none => .ok (some f.dest, s3)
        match r3 with
        | .error r => .error r
        | .ok (fh, s3) =>
          .ok { s3 with
            tarFh := some { file := fh, calls := [] }
            tarHeader := { TarHeader.zero with
              Mode := 0o644, ModTime := w.now, Uid := w.uid, Gid := w.gid,
              Typeflag := TypeReg, AccessTime := w.now, ChangeTime := w.now } }
  else .ok s1

/-- Lines 98-103 of `runExport`: the path of the index file. -/
def runExport.indexPath (f : Flags) : String :=
  let fileName := Itoa f.volumeId
  let fileName := if f.collection ≠ "" then f.collection ++ "_" ++ fileName else fileName
  Join [f.dir, fileName ++ ".idx"]

/-- Lines 98-143 of `runExport`: open the index file, load the needle map and
scan the data file. The local variable `version` travels with the state through
the scan; the data file that `ScanVolumeFile` opens is entered in the ghost log
of opened files. -/
def runExport.scan (w : World) (f : Flags) (s4 : ExportState) : Outcome × ExportState :=
  let vid := toUint32 f.volumeId
  let indexPath := runExport.indexPath f
  let s5 := { s4 with opened := s4.opened ++ [indexPath] }
  match w.openFile indexPath with
  | some e => (.fatal ("Create Volume Index [ERROR] " ++ e ++ "\n"), s5)
  | none =>
    match w.loadNeedleMap indexPath with
    | .error e => (.fatal ("cannot load needle map from " ++ indexPath ++ ": " ++ e), s5)
    | .ok nm =>
      let s6 := { s5 with opened := s5.opened ++
        [Join [f.dir, dataFileName f.collection vid]] }
      let r := ScanVolumeFile (w.volume f.dir f.collection vid)
        (fun sbVersion (st : Version × ExportState) => (none, (sbVersion, st.2)))
        (fun n offset (st : Version × ExportState) =>
          let r := runExport.onNeedle w nm vid st.1 n offset st.2
          (r.1, (st.1, r.2)))
        ((0 : Version), s6)
      match r.1 with
      | some e => (.fatal ("Export Volume File [ERROR] " ++ e ++ "\n"), r.2.2)
      | none => (.returned true, r.2.2)

/-- Embedding of `runExport` (`export.go`, lines 53-144), from the parts above.
The deferred `Close` calls are left out. -/
def runExport (w : World) (f : Flags) (s0 : ExportState) : Outcome × ExportState :=
  match runExport.parseNewer w f s0 with
  | .error e =>
    (.returned false,
      { s0 with stdout := s0.stdout ++ ["cannot parse \x27newer\x27 argument: " ++ e] })
  | .ok s1 =>
    if f.volumeId = -1 then (.returned false, s1)
    else
      match runExport.openDest w f s1 with
      | .error r => r
      | .ok s4 => runExport.scan w f s4

/-! ## Properties the theorems speak about -/

/-- The needle map points at this record: the id is present with a nonzero size
and `Offset * 8`, as an exact integer product, is the header offset. -/
def isLive (nm : NeedleMap) (p : Needle × Int) : Bool :=
  match nm.Get p.1.Id with
  | some nv => decide (0 < nv.Size.val ∧ (nv.Offset.val : Int) * 8 = p.2)
  | none => false

/-- The liveness test in the words of the specification (section 8, property 6):
`map[id] == (offset/8, nonzero)`, with Go integer division. -/
def liveBySpec (nm : NeedleMap) (p : Needle × Int) : Bool :=
  match nm.Get p.1.Id with
  | some nv => decide ((nv.Offset.val : Int) = Int.tdiv p.2 8 ∧ nv.Size.val ≠ 0)
  | none => false

/-- The `-newer` filter skips this needle: a threshold is set (`newerThanUnix`
is not negative), the needle carries a last-modified time, and that time is
below the threshold converted to `uint64`. -/
def tooOld (newerThanUnix : Int) (n : Needle) : Bool :=
  decide (newerThanUnix ≥ 0 ∧ n.HasLastModifiedDate = true ∧
    n.LastModified.val < toUint64 newerThanUnix)

/-- The records of a scan that the export hands to `walker` when the scan runs
to its end: those the map points at and the `-newer` filter keeps. -/
def exported (nm : NeedleMap) (newerThanUnix : Int) (records : List (Needle × Int)) :
    List (Needle × Int) :=
  records.filter (fun p => isLive nm p && !tooOld newerThanUnix p.1)

/-- The line that `walker` prints for a needle in listing mode (lines 184-194):
the size is the header size for version 1 and the data size otherwise. -/
def listingOf (w : World) (vid : Nat) (version : Version) (n : Needle) : String :=
  w.listingLine (w.fileIdString vid n) n.Name
    (if version = Version1 then n.Size else n.DataSize).val n.IsGzipped n.Mime

/-- The name of the index file in the words of the specification (section 3):
`<collection>_<id>.idx`, or `<id>.idx` when the collection is empty, with the
id in decimal. -/
def indexFileName (collection : String) (volumeId : Int) : String :=
  if collection = "" then Itoa volumeId ++ ".idx"
  else collection ++ "_" ++ Itoa volumeId ++ ".idx"

/-- A path element that `path.Clean` copies as it is: not empty, without a
slash, and neither `.` nor `..`. -/
def plainElement (name : List Char) : Prop :=
  name ≠ [] ∧ '/' ∉ name ∧ name ≠ ['.'] ∧ name ≠ ['.', '.']

/-- The file `name` directly under the directory `dir`: `name` itself when `dir`
is empty or cleans to nothing (then `path.Clean` gives `.`), `/name` when `dir`
cleans to the root, and `Clean(dir)/name` otherwise. -/
def underDir (dir name : String) : String :=
  if Clean.buf dir.data = [] then name
  else if Clean dir = "/" then "/" ++ name
  else Clean dir ++ "/" ++ name

/-! ## A sample volume

Volume 1 of collection `pics` after an overwrite and a delete: id 7 was written
at byte 8 and again at byte 32, id 9 at byte 56, id 5 at byte 80 and then
deleted, id 11 at byte 104. Needles with flag `0x08` carry a last-modified
time. -/

/-- First version of id 7, later overwritten. -/
def needle7a : Needle :=
  { Cookie := 1, Id := 7, Size := 1, DataSize := 1, Data := [97], Flags := 0,
    Name := "a.txt", Mime := "text/plain", LastModified := 0 }

/-- Second version of id 7, last modified at second 50. -/
def needle7b : Needle :=
  { Cookie := 1, Id := 7, Size := 2, DataSize := 2, Data := [98, 98], Flags := 8,
    Name := "a.txt", Mime := "text/plain", LastModified := 50 }

/-- Id 9, without a last-modified time. -/
def needle9 : Needle :=
  { Cookie := 2, Id := 9, Size := 3, DataSize := 3, Data := [1, 2, 3], Flags := 0,
    Name := "b.bin", Mime := "application/octet-stream", LastModified := 0 }

/-- Id 5, deleted after it was written. -/
def needle5 : Needle :=
  { Cookie := 3, Id := 5, Size := 1, DataSize := 1, Data := [0], Flags := 0,
    Name := "c", Mime := "", LastModified := 0 }

/-- Id 11, gzipped, last modified at second 100. -/
def needle11 : Needle :=
  { Cookie := 4, Id := 11, Size := 4, DataSize := 4, Data := [31, 139, 8, 0], Flags := 9,
    Name := "d.txt", Mime := "text/plain", LastModified := 100 }

/-- The needle map of the sample volume. -/
def sampleMap : NeedleMap :=
  { Get := fun id =>
      if id = 7 then some { Key := 7, Offset := 4, Size := 2 }
      else if id = 9 then some { Key := 9, Offset := 7, Size := 3 }
      else if id = 11 then some { Key := 11, Offset := 13, Size := 4 }
      else none }

/-- The records of the sample data file, in file order. -/
def sampleRecords : List (Needle × Int) :=
  [(needle7a, 8), (needle7b, 32), (needle9, 56), (needle5, 80), (needle11, 104)]

/-- A world around the sample volume in which every file operation succeeds.
`1970-01-01T00:01:40` is second 100 (local time is UTC), the template `{{` does
not parse (an unclosed action), and a parsed template is rendered as
`<mime>/<name>`. -/
def sampleWorld : World :=
  { parseTime := fun t =>
      if t = "1970-01-01T00:01:40" then .ok 100
      else .error "parsing time"
    parseTemplate := fun t =>
      if t = "\x7b\x7b" then .error "template: name:1: unclosed action"
      else .ok { src := t }
    execute := fun _ p => (p.Mime ++ "/" ++ p.Name, none)
    create := fun _ => none
    now := { sec := 1000, nsec := 0 }
    uid := 0
    gid := 0
    openFile := fun _ => none
    loadNeedleMap := fun _ => .ok sampleMap
    volume := fun _ _ _ => .ok { version := 2, records := sampleRecords, tail := none }
    fileIdString := fun vid n => Nat.repr vid ++ "," ++ Nat.repr n.Id.val
    writeHeader := fun _ _ => none
    write := fun _ _ => none
    listingLine := fun key name _ _ _ => "key=" ++ key ++ " Name=" ++ name }

/-- The command line `export -dir=/data -collection=pics -volumeId=1`. -/
def sampleFlags : Flags :=
  { Flags.default with dir := "/data", collection := "pics", volumeId := 1 }

/-- A needle whose last-modified time is 2^63 seconds. -/
def needleFar : Needle :=
  { Cookie := 5, Id := 13, Size := 1, DataSize := 1, Data := [7], Flags := 8,
    Name := "e", Mime := "x", LastModified := 9223372036854775808 }

/-- The package state in tar mode, writing to standard output, before any entry. -/
def tarModeState : ExportState :=
  { ExportState.init with
    tarFh := some { file := none, calls := [] }
    fnTmpl := some { src := defaultFnFormat }
    tarHeader := { TarHeader.zero with Mode := 0o644, Typeflag := TypeReg } }

/-! ## Lemmas: integers and strings -/

theorem mulInt64_offset (x : Uint32) : mulInt64 (toInt64 x.val) 8 = (x.val : Int) * 8 := by
  have h := x.isLt
  unfold mulInt64 toInt64
  omega

theorem toInt64_of_lt (x : Nat) (h : x < 9223372036854775808) : toInt64 (x : Int) = x := by
  unfold toInt64
  omega

theorem toUint64_of_nonneg (t : Int) (h0 : 0 ≤ t) (h1 : t < 9223372036854775808) :
    ((toUint64 t : Nat) : Int) = t := by
  unfold toUint64
  omega

/-- `strings.HasSuffix(s, suffix)` holds exactly when `s` ends in `suffix`. -/
theorem HasSuffix_iff (s suffix : String) :
    HasSuffix s suffix = true ↔ ∃ p : String, s = p ++ suffix := by
  unfold HasSuffix
  simp only [Bool.and_eq_true, decide_eq_true_eq]
  constructor
  · rintro ⟨-, hdrop⟩
    refine ⟨⟨s.data.take (s.data.length - suffix.data.length)⟩, ?_⟩
    apply String.ext
    rw [String.data_append]
    calc s.data
        = s.data.take (s.data.length - suffix.data.length) ++
            s.data.drop (s.data.length - suffix.data.length) :=
          (List.take_append_drop _ _).symm
      _ = s.data.take (s.data.length - suffix.data.length) ++ suffix.data := by rw [hdrop]
  · rintro ⟨p, rfl⟩
    rw [String.data_append]
    constructor
    · simp
    · simp

/-- A name to which `.gz` was appended has extension `.gz`. -/
theorem Ext_append_gz (s : String) : Ext (s ++ ".gz") = ".gz" := by
  unfold Ext
  apply String.ext
  rw [String.data_append]
  have h : (".gz" : String).data = ['.', 'g', 'z'] := rfl
  rw [h]
  simp [Ext.loop]

/-! ## Lemmas: `path.Clean`, `path.Join`, `path.Base` -/

theorem Clean.backtrack_ge (out : List Char) (dotdot : Nat) :
    ∀ w, dotdot ≤ w → dotdot ≤ Clean.backtrack out dotdot w
  | 0, h => by simpa [Clean.backtrack] using h
  | w + 1, h => by
    unfold Clean.backtrack
    split
    · rename_i hc
      exact Clean.backtrack_ge out dotdot w (by omega)
    · exact h

theorem head?_take_pos {α : Type} (l : List α) (k : Nat) (hk : 1 ≤ k) :
    (l.take k).head? = l.head? := by
  cases l with
  | nil => simp
  | cons a t =>
    cases k with
    | zero => omega
    | succ k => simp

theorem head?_take_ne {α : Type} (l : List α) (k : Nat) (a : α) (h : l.head? ≠ some a) :
    (l.take k).head? ≠ some a := by
  cases l with
  | nil => simp
  | cons b t =>
    cases k with
    | zero => simp
    | succ k => simpa using h

theorem head?_append_of_head? {α : Type} (l m : List α) (a : α) (h : l.head? = some a) :
    (l ++ m).head? = some a := by
  cases l with
  | nil => simp at h
  | cons b t => simpa using h

theorem Clean.dotdotStep_rooted (out : List Char) (dotdot : Nat)
    (h : out.head? = some '/') (hd : 1 ≤ dotdot) :
    (Clean.dotdotStep true out dotdot).1.head? = some '/' ∧
      1 ≤ (Clean.dotdotStep true out dotdot).2 := by
  unfold Clean.dotdotStep
  split
  · rename_i hlen
    refine ⟨?_, hd⟩
    rw [head?_take_pos _ _ ?_]
    · exact h
    · exact le_trans hd (Clean.backtrack_ge out dotdot _ (by omega))
  · simp [h, hd]

theorem Clean.dotdotStep_unrooted (out : List Char) (dotdot : Nat)
    (h : out.head? ≠ some '/') :
    (Clean.dotdotStep false out dotdot).1.head? ≠ some '/' := by
  unfold Clean.dotdotStep
  split
  · exact head?_take_ne _ _ _ h
  · cases out with
    | nil => simp
    | cons b t => simpa using h

theorem Clean.loop_rooted : ∀ (n : Nat) (rest : List Char) (st : List Char × Nat),
    st.1.head? = some '/' → 1 ≤ st.2 →
    (Clean.loop true n rest st).1.head? = some '/' ∧ 1 ≤ (Clean.loop true n rest st).2
  | 0, _, st, h, hd => by simpa [Clean.loop] using ⟨h, hd⟩
  | n + 1, [], st, h, hd => by simpa [Clean.loop] using ⟨h, hd⟩
  | n + 1, c :: rest, st, h, hd => by
    unfold Clean.loop
    split
    · exact Clean.loop_rooted n rest st h hd
    · split
      · exact Clean.loop_rooted n rest st h hd
      · split
        · exact Clean.loop_rooted n rest.tail _
            (Clean.dotdotStep_rooted st.1 st.2 h hd).1 (Clean.dotdotStep_rooted st.1 st.2 h hd).2
        · refine Clean.loop_rooted n _ (_, st.2) ?_ hd
          apply head?_append_of_head?
          split
          · exact head?_append_of_head? _ _ _ h
          · exact h

theorem Clean.loop_unrooted : ∀ (n : Nat) (rest : List Char) (st : List Char × Nat),
    st.1.head? ≠ some '/' → (Clean.loop false n rest st).1.head? ≠ some '/'
  | 0, _, st, h => by simpa [Clean.loop] using h
  | n + 1, [], st, h => by simpa [Clean.loop] using h
  | n + 1, c :: rest, st, h => by
    unfold Clean.loop
    split
    · exact Clean.loop_unrooted n rest st h
    · rename_i hc
      split
      · exact Clean.loop_unrooted n rest st h
      · split
        · exact Clean.loop_unrooted n rest.tail _ (Clean.dotdotStep_unrooted st.1 st.2 h)
        · refine Clean.loop_unrooted n _ (_, st.2) ?_
          cases hs : st.1 with
          | nil => simpa using hc
          | cons b t =>
            rw [hs] at h
            simpa using h

theorem length_dropWhile_le_self {α : Type} (p : α → Bool) :
    ∀ l : List α, (l.dropWhile p).length ≤ l.length
  | [] => by simp
  | a :: t => by
    rw [List.dropWhile_cons]
    split
    · exact le_trans (length_dropWhile_le_self p t) (by simp)
    · exact le_refl _

theorem dropWhile_append_slash (a b : List Char) :
    (a ++ '/' :: b).dropWhile (fun x => x != '/') =
      a.dropWhile (fun x => x != '/') ++ '/' :: b := by
  induction a with
  | nil => simp
  | cons c t ih =>
    by_cases hc : c = '/'
    · simp [hc]
    · simp [List.dropWhile_cons, hc, ih]

theorem takeWhile_append_slash (a b : List Char) :
    (a ++ '/' :: b).takeWhile (fun x => x != '/') = a.takeWhile (fun x => x != '/') := by
  induction a with
  | nil => simp
  | cons c t ih =>
    by_cases hc : c = '/'
    · simp [hc]
    · simp [List.takeWhile_cons, hc, ih]

theorem takeWhile_of_no_slash (a : List Char) (h : '/' ∉ a) :
    a.takeWhile (fun x => x != '/') = a ∧ a.dropWhile (fun x => x != '/') = [] := by
  induction a with
  | nil => simp
  | cons c t ih =>
    have hc : c ≠ '/' := fun e => h (by simp [e])
    have ht : '/' ∉ t := fun e => h (by simp [e])
    simp [List.takeWhile_cons, List.dropWhile_cons, hc, ih ht]

/-- The loop of `Clean` does not depend on the fuel once the fuel covers the
input that is left. -/
theorem Clean.loop_fuel (r : Bool) : ∀ (n m : Nat) (rest : List Char) (st : List Char × Nat),
    rest.length ≤ n → rest.length ≤ m → Clean.loop r n rest st = Clean.loop r m rest st
  | 0, m, rest, st, hn, _ => by
    have : rest = [] := List.length_eq_zero.mp (by omega)
    subst this
    cases m <;> rfl
  | n + 1, m, [], st, _, _ => by
    cases m <;> rfl
  | n + 1, 0, c :: rest, st, _, hm => by simp at hm
  | n + 1, m + 1, c :: rest, st, hn, hm => by
    simp only [List.length_cons, Nat.add_le_add_iff_right] at hn hm
    have ht : rest.tail.length ≤ rest.length := by simp
    have hdw := length_dropWhile_le_self (fun x => x != '/') rest
    simp only [Clean.loop]
    split
    · exact Clean.loop_fuel r n m rest st hn hm
    · split
      · exact Clean.loop_fuel r n m rest st hn hm
      · split
        · exact Clean.loop_fuel r n m rest.tail _ (by omega) (by omega)
        · exact Clean.loop_fuel r n m _ _ (by omega) (by omega)

theorem Clean.loop_cons (r : Bool) (n : Nat) (c : Char) (rest : List Char)
    (st : List Char × Nat) :
    Clean.loop r (n + 1) (c :: rest) st =
      if c = '/' then Clean.loop r n rest st
      else if c = '.' ∧ (rest = [] ∨ rest.head? = some '/') then Clean.loop r n rest st
      else if c = '.' ∧ rest.head? = some '.' ∧ (rest.tail = [] ∨ rest.tail.head? = some '/') then
        Clean.loop r n rest.tail (Clean.dotdotStep r st.1 st.2)
      else
        Clean.loop r n (rest.dropWhile (fun x => x != '/'))
          ((if (r = true ∧ st.1.length ≠ 1) ∨ (r = false ∧ st.1.length ≠ 0)
              then st.1 ++ ['/'] else st.1) ++ c :: rest.takeWhile (fun x => x != '/'), st.2) := by
  rfl

theorem cond2_append (a b : List Char) :
    ((a ++ '/' :: b) = [] ∨ (a ++ '/' :: b).head? = some '/') ↔
      (a = [] ∨ a.head? = some '/') := by
  cases a <;> simp

theorem cond3_append (a b : List Char) :
    ((a ++ '/' :: b).head? = some '.' ∧
        ((a ++ '/' :: b).tail = [] ∨ (a ++ '/' :: b).tail.head? = some '/')) ↔
      (a.head? = some '.' ∧ (a.tail = [] ∨ a.tail.head? = some '/')) := by
  cases a with
  | nil => simp
  | cons d t => cases t <;> simp

/-- Cleaning `a/b` is cleaning `a` and then going on with `b`. -/
theorem Clean.loop_append (r : Bool) : ∀ (k : Nat) (a b : List Char) (st : List Char × Nat)
    (n m : Nat), a.length ≤ k → (a ++ '/' :: b).length ≤ n → a.length ≤ m →
    Clean.loop r n (a ++ '/' :: b) st = Clean.loop r b.length b (Clean.loop r m a st)
  | k, [], b, st, n, m, _, hn, _ => by
    have hm : Clean.loop r m [] st = st := by cases m <;> rfl
    rw [hm]
    cases n with
    | zero => simp at hn
    | succ n =>
      simp only [List.nil_append, List.length_cons, Nat.add_le_add_iff_right] at hn
      simp only [List.nil_append, Clean.loop, if_true]
      exact Clean.loop_fuel r n b.length b st hn (le_refl _)
  | 0, c :: a, b, st, n, m, hk, _, _ => by simp at hk
  | k + 1, c :: a, b, st, 0, m, _, hn, _ => by simp at hn
  | k + 1, c :: a, b, st, n + 1, 0, _, _, hm => by simp at hm
  | k + 1, c :: a, b, st, n + 1, m + 1, hk, hn, hm => by
    simp only [List.length_cons, List.cons_append, Nat.add_le_add_iff_right] at hk hn hm
    have hdw := length_dropWhile_le_self (fun x => x != '/') a
    have hlen : (a ++ '/' :: b).length = a.length + (b.length + 1) := by simp
    rw [List.cons_append, Clean.loop_cons, Clean.loop_cons]
    simp only [cond2_append, cond3_append, dropWhile_append_slash, takeWhile_append_slash]
    by_cases h1 : c = '/'
    · rw [if_pos h1, if_pos h1]
      exact Clean.loop_append r k a b st n m hk hn hm
    · rw [if_neg h1, if_neg h1]
      by_cases h2 : c = '.' ∧ (a = [] ∨ a.head? = some '/')
      · rw [if_pos h2, if_pos h2]
        exact Clean.loop_append r k a b st n m hk hn hm
      · rw [if_neg h2, if_neg h2]
        by_cases h3 : c = '.' ∧ a.head? = some '.' ∧ (a.tail = [] ∨ a.tail.head? = some '/')
        · rw [if_pos h3, if_pos h3]
          have hne : a ≠ [] := by
            intro e
            rw [e] at h3
            simp at h3
          rw [List.tail_append_of_ne_nil hne]
          have hat : a.tail.length ≤ a.length := by simp
          exact Clean.loop_append r k a.tail b _ n m (by omega)
            (by simp only [List.length_append, List.length_cons, List.length_tail] at hn ⊢; omega)
            (by omega)
        · rw [if_neg h3, if_neg h3]
          exact Clean.loop_append r k (a.dropWhile (fun x => x != '/')) b _ n m (by omega)
            (by simp only [List.length_append, List.length_cons] at hn ⊢; omega) (by omega)

/-- A plain element (no slash, neither `.` nor `..`) is appended to the buffer,
after a slash when the buffer holds more than the root. -/
theorem Clean.loop_element (r : Bool) (name : List Char) (st : List Char × Nat) (n : Nat)
    (hn : name.length ≤ n) (hne : name ≠ []) (hs : '/' ∉ name)
    (h1 : name ≠ ['.']) (h2 : name ≠ ['.', '.']) :
    Clean.loop r n name st =
      ((if (r = true ∧ st.1.length ≠ 1) ∨ (r = false ∧ st.1.length ≠ 0)
          then st.1 ++ ['/'] else st.1) ++ name, st.2) := by
  cases name with
  | nil => exact absurd rfl hne
  | cons c t =>
    cases n with
    | zero => simp at hn
    | succ n =>
      have hc : c ≠ '/' := fun e => hs (by simp [e])
      have ht : '/' ∉ t := fun e => hs (by simp [e])
      have hth : t.head? ≠ some '/' := by
        intro e
        cases t with
        | nil => simp at e
        | cons d u =>
          simp only [List.head?_cons, Option.some.injEq] at e
          exact ht (by simp [e])
      have htth : t.tail.head? ≠ some '/' := by
        intro e
        cases t with
        | nil => simp at e
        | cons d u =>
          cases u with
          | nil => simp at e
          | cons x v =>
            simp only [List.tail_cons, List.head?_cons, Option.some.injEq] at e
            exact ht (by simp [e])
      have c2 : ¬ (c = '.' ∧ (t = [] ∨ t.head? = some '/')) := by
        rintro ⟨e, h | h⟩
        · exact h1 (by rw [e, h])
        · exact hth h
      have c3 : ¬ (c = '.' ∧ t.head? = some '.' ∧ (t.tail = [] ∨ t.tail.head? = some '/')) := by
        rintro ⟨e, hh, h | h⟩
        · apply h2
          cases t with
          | nil => simp at hh
          | cons d u =>
            simp only [List.head?_cons, Option.some.injEq] at hh
            simp only [List.tail_cons] at h
            rw [e, hh, h]
        · exact htth h
      obtain ⟨htw, hdw⟩ := takeWhile_of_no_slash t ht
      simp only [Clean.loop, hc, c2, c3, if_false, htw, hdw]
      cases n <;> rfl

theorem Clean.buf_element (name : List Char) (hp : plainElement name) :
    Clean.buf name = name := by
  obtain ⟨hne, hs, h1, h2⟩ := hp
  unfold Clean.buf
  have hh : name.head? ≠ some '/' := by
    intro e
    cases name with
    | nil => simp at e
    | cons c t =>
      simp only [List.head?_cons, Option.some.injEq] at e
      exact hs (by simp [e])
  rw [if_neg hh, Clean.loop_element false name _ name.length (le_refl _) hne hs h1 h2]
  simp

theorem Clean.buf_append_element (d name : List Char) (hd : d ≠ []) (hp : plainElement name) :
    Clean.buf (d ++ '/' :: name) =
      if Clean.buf d = [] then name
      else if Clean.buf d = ['/'] then '/' :: name
      else Clean.buf d ++ '/' :: name := by
  obtain ⟨hne, hs, h1, h2⟩ := hp
  have hhead : (d ++ '/' :: name).head? = d.head? := by
    cases d with
    | nil => exact absurd rfl hd
    | cons c t => rfl
  unfold Clean.buf
  rw [hhead]
  by_cases hr : d.head? = some '/'
  · rw [if_pos hr, if_pos hr, List.tail_append_of_ne_nil hd,
      Clean.loop_append true d.tail.length d.tail name (['/'], 1) _ d.length (le_refl _)
        (by simp only [List.length_append, List.length_cons, List.length_tail]; omega)
        (by simp),
      Clean.loop_element true name _ name.length (le_refl _) hne hs h1 h2]
    obtain ⟨hinv, -⟩ := Clean.loop_rooted d.length d.tail (['/'], 1) rfl (le_refl _)
    generalize (Clean.loop true d.length d.tail (['/'], 1)).1 = out at hinv
    cases out with
    | nil => simp at hinv
    | cons c t =>
      simp only [List.head?_cons, Option.some.injEq] at hinv
      subst hinv
      cases t with
      | nil => simp
      | cons x u => simp
  · rw [if_neg hr, if_neg hr,
      Clean.loop_append false d.length d name ([], 0) _ d.length (le_refl _) (le_refl _)
        (le_refl _),
      Clean.loop_element false name _ name.length (le_refl _) hne hs h1 h2]
    have hinv := Clean.loop_unrooted d.length d ([], 0) (by simp)
    generalize (Clean.loop false d.length d ([], 0)).1 = out at hinv
    cases out with
    | nil => simp
    | cons c t =>
      have hc : c ≠ '/' := by simpa using hinv
      simp [hc]

/-- Joining a directory and a plain element puts the element directly under
the cleaned directory. -/
theorem Join_element (dir name : String) (hp : plainElement name.data) :
    Join [dir, name] = underDir dir name := by
  obtain ⟨d⟩ := dir
  obtain ⟨nm⟩ := name
  have hne : nm ≠ [] := hp.1
  have hlen : nm.length ≠ 0 := by
    intro e
    exact hne (List.length_eq_zero.mp e)
  unfold Join underDir
  have hsum : ¬ ((List.map String.length [(⟨d⟩ : String), ⟨nm⟩]).sum = 0) := by
    simp only [List.map_cons, List.map_nil, List.sum_cons, List.sum_nil, String.length]
    omega
  rw [if_neg hsum]
  cases d with
  | nil =>
    have hbuf : Join.buf [(⟨[]⟩ : String), ⟨nm⟩] [] = nm := by
      simp [Join.buf, String.ext_iff, hne]
    rw [hbuf]
    unfold Clean
    have hnm : (⟨nm⟩ : String) ≠ "" := by
      simp [String.ext_iff, hne]
    rw [if_neg hnm]
    simp only [Clean.buf_element nm hp]
    rw [if_neg hne]
    simp [Clean.buf, Clean.loop]
  | cons c t =>
    have hbuf : Join.buf [(⟨c :: t⟩ : String), ⟨nm⟩] [] = (c :: t) ++ '/' :: nm := by
      simp [Join.buf, String.ext_iff]
    rw [hbuf]
    have hd : (c :: t) ≠ [] := by simp
    have key := Clean.buf_append_element (c :: t) nm hd hp
    unfold Clean
    have e1 : (⟨c :: t ++ '/' :: nm⟩ : String) ≠ "" := by simp [String.ext_iff]
    have e2 : (⟨c :: t⟩ : String) ≠ "" := by simp [String.ext_iff]
    rw [if_neg e1, if_neg e2]
    simp only [key]
    by_cases hb : Clean.buf (c :: t) = []
    · simp [hb, hne]
    · by_cases hb2 : Clean.buf (c :: t) = ['/']
      · simp [hb2, String.ext_iff]
      · have hb3 : (⟨Clean.buf (c :: t)⟩ : String) ≠ "/" := by
          simpa [String.ext_iff] using hb2
        simp [hb, hb2, hb3, String.ext_iff]

/-- The base name of a path that ends in a slash followed by a plain element,
or that is a plain element, is that element. -/
theorem Base_element (pre name : List Char) (hne : name ≠ []) (hs : '/' ∉ name)
    (hpre : pre = [] ∨ ∃ q, pre = q ++ ['/']) :
    Base ⟨pre ++ name⟩ = ⟨name⟩ := by
  unfold Base
  have e1 : (⟨pre ++ name⟩ : String) ≠ "" := by simp [String.ext_iff, hne]
  rw [if_neg e1]
  have hrevne : name.reverse ≠ [] := by simpa using hne
  have hstrip : (pre ++ name).reverse.dropWhile (fun x => x == '/') = (pre ++ name).reverse := by
    rw [List.reverse_append]
    cases hr : name.reverse with
    | nil => exact absurd hr hrevne
    | cons c t =>
      have hc : c ≠ '/' := by
        intro e
        apply hs
        have : c ∈ name.reverse := by rw [hr]; simp
        rw [e] at this
        simpa using this
      simp [List.dropWhile_cons, hc]
  have hsr : '/' ∉ name.reverse := by simpa using hs
  have hlast : (pre ++ name).reverse.takeWhile (fun x => x != '/') = name.reverse := by
    rw [List.reverse_append]
    rcases hpre with h | ⟨q, h⟩
    · rw [h]
      simpa using (takeWhile_of_no_slash name.reverse hsr).1
    · rw [h]
      simp only [List.reverse_append, List.reverse_cons, List.reverse_nil, List.nil_append,
        List.singleton_append]
      rw [takeWhile_append_slash]
      exact (takeWhile_of_no_slash name.reverse hsr).1
  simp only [hstrip, List.reverse_reverse, hlast]
  rw [if_neg hne]

theorem digitChar_ne_slash : ∀ m : Fin 10, Nat.digitChar m.val ≠ '/' := by
  decide

theorem toDigitsCore_no_slash : ∀ (fuel n : Nat) (ds : List Char), '/' ∉ ds →
    '/' ∉ Nat.toDigitsCore 10 fuel n ds
  | 0, _, ds, h => by simpa [Nat.toDigitsCore] using h
  | fuel + 1, n, ds, h => by
    have hd : '/' ∉ Nat.digitChar (n % 10) :: ds := by
      simp only [List.mem_cons, not_or]
      exact ⟨fun e => digitChar_ne_slash ⟨n % 10, Nat.mod_lt n (by decide)⟩ e.symm, h⟩
    simp only [Nat.toDigitsCore]
    split
    · exact hd
    · exact toDigitsCore_no_slash fuel (n / 10) _ hd

theorem Itoa_no_slash (i : Int) : '/' ∉ (Itoa i).data := by
  have h : '/' ∉ (Nat.repr i.natAbs).data := by
    unfold Nat.repr Nat.toDigits
    exact toDigitsCore_no_slash _ _ [] (by simp)
  unfold Itoa
  split
  · rw [String.data_append]
    simp only [List.mem_append, not_or]
    exact ⟨by decide, h⟩
  · exact h

theorem plainElement_indexFileName (c : String) (v : Int) (hc : '/' ∉ c.data) :
    plainElement (indexFileName c v).data := by
  have hi := Itoa_no_slash v
  have hidx : (".idx" : String).data = ['.', 'i', 'd', 'x'] := rfl
  have huns : ("_" : String).data = ['_'] := rfl
  unfold indexFileName
  split
  · simp only [String.data_append, hidx]
    refine ⟨by simp, ?_, ?_, ?_⟩
    · simp only [List.mem_append, not_or]
      exact ⟨hi, by decide⟩
    · intro e
      have := congrArg List.length e
      simp at this
    · intro e
      have := congrArg List.length e
      simp only [List.length_append, List.length_cons, List.length_nil] at this
      omega
  · simp only [String.data_append, hidx, huns]
    refine ⟨by simp, ?_, ?_, ?_⟩
    · simp only [List.mem_append, not_or]
      exact ⟨⟨⟨hc, by decide⟩, hi⟩, by decide⟩
    · intro e
      have := congrArg List.length e
      simp only [List.length_append, List.length_cons, List.length_nil] at this
      omega
    · intro e
      have := congrArg List.length e
      simp only [List.length_append, List.length_cons, List.length_nil] at this
      omega

theorem Base_underDir (dir name : String) (hp : plainElement name.data) :
    Base (underDir dir name) = name := by
  obtain ⟨hne, hs, -, -⟩ := hp
  unfold underDir
  split
  · exact Base_element [] name.data hne hs (Or.inl rfl)
  · split
    · exact Base_element ['/'] name.data hne hs (Or.inr ⟨[], rfl⟩)
    · have e : Clean dir ++ "/" ++ name = ⟨((Clean dir).data ++ ['/']) ++ name.data⟩ := by
        apply String.ext
        simp [String.data_append]
      rw [e]
      exact Base_element _ name.data hne hs (Or.inr ⟨_, rfl⟩)

theorem indexPath_eq (f : Flags) :
    runExport.indexPath f = Join [f.dir, indexFileName f.collection f.volumeId] := by
  unfold runExport.indexPath indexFileName
  by_cases hc : f.collection = ""
  · simp [hc]
  · simp [hc]

/-! ## Lemmas: the export callback and the scan -/

theorem walker_walked (w : World) (vid : Nat) (n : Needle) (version : Version)
    (s : ExportState) : (walker w vid n version s).2.walked = s.walked := by
  unfold walker
  dsimp only
  repeat' split
  all_goals rfl

theorem walker_newerThanUnix (w : World) (vid : Nat) (n : Needle) (version : Version)
    (s : ExportState) : (walker w vid n version s).2.newerThanUnix = s.newerThanUnix := by
  unfold walker
  dsimp only
  repeat' split
  all_goals rfl

theorem onNeedle_of_kept (w : World) (nm : NeedleMap) (vid : Nat) (version : Version)
    (n : Needle) (offset : Int) (s : ExportState)
    (h : (isLive nm (n, offset) && !tooOld s.newerThanUnix n) = true) :
    runExport.onNeedle w nm vid version n offset s =
      walker w vid n version { s with walked := s.walked ++ [(n, offset)] } := by
  unfold runExport.onNeedle
  simp only [isLive, tooOld, Bool.and_eq_true, Bool.not_eq_true', decide_eq_false_iff_not] at h
  obtain ⟨h1, h2⟩ := h
  cases hg : nm.Get n.Id with
  | none => simp [hg] at h1
  | some nv =>
    simp only [hg, decide_eq_true_eq] at h1
    simp only [mulInt64_offset]
    rw [if_pos h1, if_neg h2]

theorem onNeedle_of_dropped (w : World) (nm : NeedleMap) (vid : Nat) (version : Version)
    (n : Needle) (offset : Int) (s : ExportState)
    (h : (isLive nm (n, offset) && !tooOld s.newerThanUnix n) = false) :
    runExport.onNeedle w nm vid version n offset s = (none, s) := by
  unfold runExport.onNeedle
  cases hg : nm.Get n.Id with
  | none => rfl
  | some nv =>
    simp only [mulInt64_offset]
    by_cases h1 : nv.Size.val > 0 ∧ (nv.Offset.val : Int) * 8 = offset
    · rw [if_pos h1]
      have hl : isLive nm (n, offset) = true := by
        simp only [isLive, hg, decide_eq_true_eq]
        exact h1
      rw [hl] at h
      simp only [Bool.true_and, Bool.not_eq_false', tooOld, decide_eq_true_eq] at h
      rw [if_pos h]
    · rw [if_neg h1]

theorem exported_cons_kept (nm : NeedleMap) (t : Int) (p : Needle × Int)
    (rest : List (Needle × Int)) (h : (isLive nm p && !tooOld t p.1) = true) :
    exported nm t (p :: rest) = p :: exported nm t rest := by
  unfold exported
  simp only [List.filter_cons, h, if_true]

theorem exported_cons_dropped (nm : NeedleMap) (t : Int) (p : Needle × Int)
    (rest : List (Needle × Int)) (h : (isLive nm p && !tooOld t p.1) = false) :
    exported nm t (p :: rest) = exported nm t rest := by
  unfold exported
  simp only [List.filter_cons, h]
  rfl

/-- The scan hands to `walker`, in file order, the kept records of the part of
the file it visits; it visits the whole file unless a callback fails. -/
theorem scanNeedles_onNeedle (w : World) (nm : NeedleMap) (vid : Nat) (version : Version) :
    ∀ (records : List (Needle × Int)) (s : ExportState),
      ∃ visited rest, records = visited ++ rest ∧
        (scanNeedles (runExport.onNeedle w nm vid version) records s).2.walked =
          s.walked ++ exported nm s.newerThanUnix visited ∧
        (scanNeedles (runExport.onNeedle w nm vid version) records s).2.newerThanUnix =
          s.newerThanUnix ∧
        ((scanNeedles (runExport.onNeedle w nm vid version) records s).1 = none →
          rest = []) := by
  intro records
  induction records with
  | nil =>
    intro s
    exact ⟨[], [], rfl, by simp [scanNeedles, exported], rfl, fun _ => rfl⟩
  | cons p tl ih =>
    intro s
    obtain ⟨n, offset⟩ := p
    by_cases hk : (isLive nm (n, offset) && !tooOld s.newerThanUnix n) = true
    · have hcb := onNeedle_of_kept w nm vid version n offset s hk
      have hwk := walker_walked w vid n version { s with walked := s.walked ++ [(n, offset)] }
      have hnw := walker_newerThanUnix w vid n version
        { s with walked := s.walked ++ [(n, offset)] }
      rw [← hcb] at hwk hnw
      cases hr : runExport.onNeedle w nm vid version n offset s with
      | mk e s1 =>
        rw [hr] at hwk hnw
        simp only at hwk hnw
        cases e with
        | some e =>
          refine ⟨[(n, offset)], tl, rfl, ?_, ?_, ?_⟩
          · simp only [scanNeedles, hr]
            rw [hwk, exported_cons_kept nm _ (n, offset) [] hk]
            rfl
          · simp only [scanNeedles, hr]
            exact hnw
          · simp [scanNeedles, hr]
        | none =>
          obtain ⟨visited, rest, hsplit, hw1, hn1, hrest⟩ := ih s1
          refine ⟨(n, offset) :: visited, rest, by rw [hsplit]; rfl, ?_, ?_, ?_⟩
          · simp only [scanNeedles, hr]
            rw [hw1, hwk, hnw, exported_cons_kept nm _ (n, offset) visited hk]
            simp
          · simp only [scanNeedles, hr]
            rw [hn1, hnw]
          · simp only [scanNeedles, hr]
            exact hrest
    · have hk2 : (isLive nm (n, offset) && !tooOld s.newerThanUnix n) = false := by
        simpa using hk
      have hcb := onNeedle_of_dropped w nm vid version n offset s hk2
      obtain ⟨visited, rest, hsplit, hw1, hn1, hrest⟩ := ih s
      refine ⟨(n, offset) :: visited, rest, by rw [hsplit]; rfl, ?_, ?_, ?_⟩
      · simp only [scanNeedles, hcb]
        rw [hw1, exported_cons_dropped nm _ (n, offset) visited hk2]
      · simp only [scanNeedles, hcb]
        exact hn1
      · simp only [scanNeedles, hcb]
        exact hrest

/-- The scan of `runExport` carries the version with the state; the version
never changes during the needle loop. -/
theorem scanNeedles_versioned (w : World) (nm : NeedleMap) (vid : Nat) (version : Version) :
    ∀ (records : List (Needle × Int)) (s : ExportState),
      scanNeedles
        (fun n offset (st : Version × ExportState) =>
          ((runExport.onNeedle w nm vid st.1 n offset st.2).1,
            (st.1, (runExport.onNeedle w nm vid st.1 n offset st.2).2)))
        records (version, s) =
      ((scanNeedles (runExport.onNeedle w nm vid version) records s).1,
        (version, (scanNeedles (runExport.onNeedle w nm vid version) records s).2)) := by
  intro records
  induction records with
  | nil => intro s; rfl
  | cons p tl ih =>
    intro s
    obtain ⟨n, offset⟩ := p
    cases hr : runExport.onNeedle w nm vid version n offset s with
    | mk e s1 =>
      cases e with
      | some e => simp [scanNeedles, hr]
      | none => simp [scanNeedles, hr, ih s1]

/-! ## Lemmas: files opened, listing mode -/

theorem walker_opened (w : World) (vid : Nat) (n : Needle) (version : Version)
    (s : ExportState) : (walker w vid n version s).2.opened = s.opened := by
  unfold walker
  dsimp only
  repeat' split
  all_goals rfl

theorem walker_listing (w : World) (vid : Nat) (n : Needle) (version : Version)
    (s : ExportState) (h : s.tarFh = none) :
    walker w vid n version s =
      (none, { s with stdout := s.stdout ++ [listingOf w vid version n] }) := by
  unfold walker listingOf
  simp only [h]

theorem onNeedle_opened (w : World) (nm : NeedleMap) (vid : Nat) (version : Version)
    (n : Needle) (offset : Int) (s : ExportState) :
    (runExport.onNeedle w nm vid version n offset s).2.opened = s.opened := by
  by_cases hk : (isLive nm (n, offset) && !tooOld s.newerThanUnix n) = true
  · rw [onNeedle_of_kept w nm vid version n offset s hk, walker_opened]
  · have hk2 : (isLive nm (n, offset) && !tooOld s.newerThanUnix n) = false := by
      simpa using hk
    rw [onNeedle_of_dropped w nm vid version n offset s hk2]

theorem scanNeedles_opened (w : World) (nm : NeedleMap) (vid : Nat) (version : Version) :
    ∀ (records : List (Needle × Int)) (s : ExportState),
      (scanNeedles (runExport.onNeedle w nm vid version) records s).2.opened = s.opened := by
  intro records
  induction records with
  | nil => intro s; rfl
  | cons p tl ih =>
    intro s
    obtain ⟨n, offset⟩ := p
    have ho := onNeedle_opened w nm vid version n offset s
    cases hr : runExport.onNeedle w nm vid version n offset s with
    | mk e s1 =>
      rw [hr] at ho
      cases e with
      | some e => simpa [scanNeedles, hr] using ho
      | none =>
        simp only [scanNeedles, hr]
        rw [ih s1]
        exact ho

/-- In listing mode the scan never fails, creates no tar writer, visits every
record and prints one line per record handed to `walker`. -/
theorem scanNeedles_listing (w : World) (nm : NeedleMap) (vid : Nat) (version : Version) :
    ∀ (records : List (Needle × Int)) (s : ExportState), s.tarFh = none →
      (scanNeedles (runExport.onNeedle w nm vid version) records s).1 = none ∧
      (scanNeedles (runExport.onNeedle w nm vid version) records s).2.tarFh = none ∧
      (scanNeedles (runExport.onNeedle w nm vid version) records s).2.walked =
        s.walked ++ exported nm s.newerThanUnix records ∧
      (scanNeedles (runExport.onNeedle w nm vid version) records s).2.stdout =
        s.stdout ++ (exported nm s.newerThanUnix records).map
          (fun p => listingOf w vid version p.1) := by
  intro records
  induction records with
  | nil =>
    intro s h
    simp [scanNeedles, exported, h]
  | cons p tl ih =>
    intro s h
    obtain ⟨n, offset⟩ := p
    by_cases hk : (isLive nm (n, offset) && !tooOld s.newerThanUnix n) = true
    · have hcb := onNeedle_of_kept w nm vid version n offset s hk
      rw [walker_listing w vid n version { s with walked := s.walked ++ [(n, offset)] } h]
        at hcb
      simp only [scanNeedles, hcb]
      obtain ⟨h1, h2, h3, h4⟩ := ih
        { s with walked := s.walked ++ [(n, offset)],
                 stdout := s.stdout ++ [listingOf w vid version n] } h
      refine ⟨h1, h2, ?_, ?_⟩
      · rw [h3, exported_cons_kept nm _ (n, offset) tl hk]
        simp
      · rw [h4, exported_cons_kept nm _ (n, offset) tl hk]
        simp
    · have hk2 : (isLive nm (n, offset) && !tooOld s.newerThanUnix n) = false := by
        simpa using hk
      have hcb := onNeedle_of_dropped w nm vid version n offset s hk2
      simp only [scanNeedles, hcb]
      obtain ⟨h1, h2, h3, h4⟩ := ih s h
      refine ⟨h1, h2, ?_, ?_⟩
      · rw [h3, exported_cons_dropped nm _ (n, offset) tl hk2]
      · rw [h4, exported_cons_dropped nm _ (n, offset) tl hk2]

/-! ## Lemmas: the run as a whole -/

theorem parseNewer_ok (w : World) (f : Flags) (s s1 : ExportState)
    (h : runExport.parseNewer w f s = .ok s1) :
    s1 = { s with newerThanUnix := s1.newerThanUnix } ∧
      (f.newer = "" → s1.newerThanUnix = s.newerThanUnix) ∧
      (∀ t, f.newer ≠ "" → w.parseTime f.newer = .ok t → s1.newerThanUnix = t) := by
  unfold runExport.parseNewer at h
  by_cases hn : f.newer = ""
  · simp only [hn, ne_eq, not_true_eq_false, if_false, Except.ok.injEq] at h
    subst h
    simp [hn]
  · simp only [ne_eq, hn, not_false_eq_true, if_true] at h
    cases hp : w.parseTime f.newer with
    | error e => simp [hp] at h
    | ok t =>
      simp only [hp, Except.ok.injEq] at h
      subst h
      simp [hn]

theorem openDest_ok (w : World) (f : Flags) (s1 s4 : ExportState)
    (h : runExport.openDest w f s1 = .ok s4) :
    s4.walked = s1.walked ∧ s4.newerThanUnix = s1.newerThanUnix ∧
      (f.dest = "" → s4 = s1) := by
  unfold runExport.openDest at h
  by_cases hd : f.dest = ""
  · simp only [hd, ne_eq, not_true_eq_false, if_false, Except.ok.injEq] at h
    subst h
    simp
  · simp only [ne_eq, hd, not_false_eq_true, if_true] at h
    split at h
    · simp at h
    · cases hp : w.parseTemplate f.format with
      | error e => simp [hp] at h
      | ok t =>
        simp only [hp] at h
        by_cases hs : f.dest = "-"
        · simp only [hs, if_true, Except.ok.injEq] at h
          subst h
          simp [hd]
        · simp only [hs, if_false] at h
          cases hc : w.create f.dest with
          | some e => simp [hc] at h
          | none =>
            simp only [hc, Except.ok.injEq] at h
            subst h
            simp [hd]

theorem openDest_error (w : World) (f : Flags) (s1 : ExportState) (r : Outcome × ExportState)
    (h : runExport.openDest w f s1 = .error r) :
    r.2.walked = s1.walked ∧ r.2.newerThanUnix = s1.newerThanUnix ∧
      (r.1 = .returned false → r.2.opened = s1.opened) ∧ r.1 ≠ .returned true := by
  unfold runExport.openDest at h
  by_cases hd : f.dest = ""
  · simp [hd] at h
  · simp only [ne_eq, hd, not_false_eq_true, if_true] at h
    split at h
    · simp only [Except.error.injEq] at h
      subst h
      simp
    · cases hp : w.parseTemplate f.format with
      | error e =>
        simp only [hp, Except.error.injEq] at h
        subst h
        simp
      | ok t =>
        simp only [hp] at h
        by_cases hs : f.dest = "-"
        · simp [hs] at h
        · simp only [hs, if_false] at h
          cases hc : w.create f.dest with
          | some e =>
            simp only [hc, Except.error.injEq] at h
            subst h
            simp
          | none => simp [hc] at h

/-- What the part of `runExport` after the `-o` handling does: it never returns
false; either it stops before any record is visited, or it visits a leading
part of the records of the data file, all of them when it returns true, and
hands the kept ones to `walker`. -/
theorem scan_spec (w : World) (f : Flags) (s4 : ExportState) :
    (runExport.scan w f s4).1 ≠ .returned false ∧
      (runExport.scan w f s4).2.newerThanUnix = s4.newerThanUnix ∧
      (((runExport.scan w f s4).2.walked = s4.walked ∧
          (runExport.scan w f s4).1 ≠ .returned true) ∨
        ∃ nm v visited rest,
          w.loadNeedleMap (runExport.indexPath f) = .ok nm ∧
          w.volume f.dir f.collection (toUint32 f.volumeId) = .ok v ∧
          v.records = visited ++ rest ∧
          (runExport.scan w f s4).2.walked =
            s4.walked ++ exported nm s4.newerThanUnix visited ∧
          ((runExport.scan w f s4).1 = .returned true → rest = [] ∧ v.tail = none)) := by
  unfold runExport.scan
  dsimp only
  cases ho : w.openFile (runExport.indexPath f) with
  | some e => simp
  | none =>
    cases hl : w.loadNeedleMap (runExport.indexPath f) with
    | error e => simp
    | ok nm =>
      cases hv : w.volume f.dir f.collection (toUint32 f.volumeId) with
      | error e => simp [ScanVolumeFile]
      | ok v =>
        simp only [ScanVolumeFile]
        rw [scanNeedles_versioned]
        obtain ⟨visited, rest, hsplit, hw, hn, hrest⟩ :=
          scanNeedles_onNeedle w nm (toUint32 f.volumeId) v.version v.records
            { s4 with opened := s4.opened ++ [runExport.indexPath f] ++
              [Join [f.dir, dataFileName f.collection (toUint32 f.volumeId)]] }
        simp only [List.append_assoc] at hw hn hrest
        simp only [List.append_assoc]
        cases hr : (scanNeedles (runExport.onNeedle w nm (toUint32 f.volumeId) v.version)
            v.records
            { s4 with opened := s4.opened ++ ([runExport.indexPath f] ++
              [Join [f.dir, dataFileName f.collection (toUint32 f.volumeId)]]) }).1 with
        | some e =>
          refine ⟨by simp, by simpa using hn, Or.inr ⟨nm, v, visited, rest, rfl, rfl, hsplit, ?_, ?_⟩⟩
          · simpa using hw
          · simp
        | none =>
          rw [hr] at hrest
          cases ht : v.tail with
          | some e =>
            refine ⟨by simp, by simpa using hn,
              Or.inr ⟨nm, v, visited, rest, rfl, rfl, hsplit, ?_, ?_⟩⟩
            · simpa using hw
            · simp
          | none =>
            refine ⟨by simp, by simpa using hn,
              Or.inr ⟨nm, v, visited, rest, rfl, rfl, hsplit, ?_, ?_⟩⟩
            · simpa using hw
            · intro _; exact ⟨hrest rfl, ht⟩

/-- The threshold of the `-newer` filter at the end of a run: the parsed time
when `-newer` is given and parses, the initial value when `-newer` is empty. -/
theorem runExport_newerThanUnix (w : World) (f : Flags) (s0 : ExportState) :
    (f.newer = "" → (runExport w f s0).2.newerThanUnix = s0.newerThanUnix) ∧
      (∀ t, f.newer ≠ "" → w.parseTime f.newer = .ok t →
        (runExport w f s0).2.newerThanUnix = t) := by
  unfold runExport
  cases hp : runExport.parseNewer w f s0 with
  | error e =>
    unfold runExport.parseNewer at hp
    by_cases hn : f.newer = ""
    · simp [hn] at hp
    · simp only [ne_eq, hn, not_false_eq_true, if_true] at hp
      refine ⟨fun h => absurd h hn, ?_⟩
      intro t _ ht
      simp [ht] at hp
  | ok s1 =>
    obtain ⟨-, h1, h2⟩ := parseNewer_ok w f s0 s1 hp
    dsimp only
    by_cases hv : f.volumeId = -1
    · simp only [hv, if_true]
      exact ⟨h1, h2⟩
    · simp only [hv, if_false]
      cases hd : runExport.openDest w f s1 with
      | error r =>
        obtain ⟨-, hn, -, -⟩ := openDest_error w f s1 r hd
        dsimp only
        rw [hn]
        exact ⟨h1, h2⟩
      | ok s4 =>
        obtain ⟨-, hn, -⟩ := openDest_ok w f s1 s4 hd
        dsimp only
        rw [(scan_spec w f s4).2.1, hn]
        exact ⟨h1, h2⟩

/-- The records a run hands to `walker`: none when the run stops before the
scan, else the kept records of the leading part of the data file that the scan
visits, which is the whole file when the run returns true. -/
theorem runExport_walked (w : World) (f : Flags) (s0 : ExportState) :
    ((runExport w f s0).2.walked = s0.walked ∧ (runExport w f s0).1 ≠ .returned true) ∨
      ∃ nm v visited rest,
        w.loadNeedleMap (runExport.indexPath f) = .ok nm ∧
        w.volume f.dir f.collection (toUint32 f.volumeId) = .ok v ∧
        v.records = visited ++ rest ∧
        (runExport w f s0).2.walked =
          s0.walked ++ exported nm (runExport w f s0).2.newerThanUnix visited ∧
        ((runExport w f s0).1 = .returned true → rest = [] ∧ v.tail = none) := by
  unfold runExport
  cases hp : runExport.parseNewer w f s0 with
  | error e => left; simp
  | ok s1 =>
    obtain ⟨hs1, -, -⟩ := parseNewer_ok w f s0 s1 hp
    have hw1 : s1.walked = s0.walked := by rw [hs1]
    dsimp only
    by_cases hv : f.volumeId = -1
    · left
      simp [hv, hw1]
    · simp only [hv, if_false]
      cases hd : runExport.openDest w f s1 with
      | error r =>
        obtain ⟨hw, -, -, hne⟩ := openDest_error w f s1 r hd
        left
        dsimp only
        exact ⟨by rw [hw, hw1], hne⟩
      | ok s4 =>
        obtain ⟨hw, hn, -⟩ := openDest_ok w f s1 s4 hd
        dsimp only
        obtain ⟨-, hnw, hsc⟩ := scan_spec w f s4
        rcases hsc with ⟨h1, h2⟩ | ⟨nm, v, visited, rest, hl, hvol, hsplit, hwk, hret⟩
        · left
          exact ⟨by rw [h1, hw, hw1], h2⟩
        · right
          refine ⟨nm, v, visited, rest, hl, hvol, hsplit, ?_, hret⟩
          rw [hwk, hnw, hw, hw1]

/-! ## Lemmas: liveness -/

theorem isLive_iff (nm : NeedleMap) (p : Needle × Int) :
    isLive nm p = true ↔
      ∃ nv, nm.Get p.1.Id = some nv ∧ 0 < nv.Size.val ∧ (nv.Offset.val : Int) * 8 = p.2 := by
  unfold isLive
  cases hg : nm.Get p.1.Id with
  | none => simp
  | some nv => simp

/-- On header offsets that are multiples of 8, the test of the callback and the
test in the words of the specification agree. -/
theorem liveBySpec_eq_isLive (nm : NeedleMap) (p : Needle × Int) (h8 : p.2 % 8 = 0) :
    liveBySpec nm p = isLive nm p := by
  unfold liveBySpec isLive
  cases hg : nm.Get p.1.Id with
  | none => rfl
  | some nv =>
    have hdvd : (8 : Int) ∣ p.2 := Int.dvd_of_emod_eq_zero h8
    have ht : Int.tdiv p.2 8 = p.2 / 8 := Int.tdiv_eq_ediv_of_dvd hdvd
    simp only [ht]
    apply decide_eq_decide.mpr
    constructor
    · rintro ⟨h1, h2⟩
      exact ⟨by omega, by omega⟩
    · rintro ⟨h1, h2⟩
      exact ⟨by omega, by omega⟩

theorem mem_exported (nm : NeedleMap) (t : Int) (records : List (Needle × Int))
    (p : Needle × Int) :
    p ∈ exported nm t records ↔ p ∈ records ∧ isLive nm p = true ∧ tooOld t p.1 = false := by
  unfold exported
  simp [List.mem_filter]

theorem exported_sublist (nm : NeedleMap) (t : Int) (records : List (Needle × Int)) :
    (exported nm t records).Sublist records := by
  unfold exported
  exact List.filter_sublist records

/-- A list whose images under `g` are pairwise distinct and all equal has at
most one element. -/
theorem length_le_one_of_nodup_const {α β : Type} (g : α → β) :
    ∀ (l : List α), (l.map g).Nodup → (∀ a ∈ l, ∀ b ∈ l, g a = g b) → l.length ≤ 1
  | [], _, _ => by simp
  | [_], _, _ => by simp
  | a :: b :: _, hnd, hc => by
    exfalso
    have hab : g a = g b := hc a (by simp) b (by simp)
    simp only [List.map_cons, List.nodup_cons, List.mem_cons] at hnd
    exact hnd.1 (Or.inl hab)

/-! ## Lemmas: files opened and output of a run -/

/-- A run in listing mode creates no tar writer and prints one line per record
handed to `walker`. -/
theorem scan_listing (w : World) (f : Flags) (s4 : ExportState) (ht : s4.tarFh = none)
    (hw : s4.walked = []) (hs : s4.stdout = []) :
    (runExport.scan w f s4).2.tarFh = none ∧
      ∃ version, (runExport.scan w f s4).2.stdout =
        (runExport.scan w f s4).2.walked.map
          (fun p => listingOf w (toUint32 f.volumeId) version p.1) := by
  unfold runExport.scan
  dsimp only
  cases ho : w.openFile (runExport.indexPath f) with
  | some e => exact ⟨ht, 0, by simp [hw, hs]⟩
  | none =>
    cases hl : w.loadNeedleMap (runExport.indexPath f) with
    | error e => exact ⟨ht, 0, by simp [hw, hs]⟩
    | ok nm =>
      cases hv : w.volume f.dir f.collection (toUint32 f.volumeId) with
      | error e => exact ⟨by simpa [ScanVolumeFile] using ht, 0, by simp [ScanVolumeFile, hw, hs]⟩
      | ok v =>
        simp only [ScanVolumeFile]
        rw [scanNeedles_versioned]
        obtain ⟨h1, h2, h3, h4⟩ :=
          scanNeedles_listing w nm (toUint32 f.volumeId) v.version v.records
            { s4 with opened := s4.opened ++ [runExport.indexPath f] ++
              [Join [f.dir, dataFileName f.collection (toUint32 f.volumeId)]] } ht
        simp only [h1]
        cases htl : v.tail with
        | some e => exact ⟨h2, v.version, by rw [h4, h3]; simp [hw, hs]⟩
        | none => exact ⟨h2, v.version, by rw [h4, h3]; simp [hw, hs]⟩

theorem parseNewer_isOk (w : World) (f : Flags) (s : ExportState)
    (h : f.newer = "" ∨ ∃ t, w.parseTime f.newer = .ok t) :
    ∃ s1, runExport.parseNewer w f s = .ok s1 := by
  unfold runExport.parseNewer
  by_cases hn : f.newer = ""
  · exact ⟨s, by simp [hn]⟩
  · rcases h with h | ⟨t, ht⟩
    · exact absurd h hn
    · exact ⟨{ s with newerThanUnix := t }, by simp [hn, ht]⟩

/-- With `-o` given, the `-o` handling ends the run with `return false` exactly
when the name is neither `-` nor ends in `.tar`, or the file name template
does not parse. -/
theorem openDest_returned_false_iff (w : World) (f : Flags) (s1 : ExportState)
    (hd : f.dest ≠ "") :
    (∃ s2, runExport.openDest w f s1 = .error (.returned false, s2)) ↔
      ((f.dest ≠ "-" ∧ ¬ HasSuffix f.dest ".tar" = true) ∨
        ∃ e, w.parseTemplate f.format = .error e) := by
  unfold runExport.openDest
  simp only [ne_eq, hd, not_false_eq_true, if_true]
  by_cases hbad : ¬f.dest = "-" ∧ ¬HasSuffix f.dest ".tar" = true
  · rw [if_pos hbad]
    constructor
    · intro _; exact Or.inl hbad
    · intro _; exact ⟨_, rfl⟩
  · rw [if_neg hbad]
    simp only [hbad, false_or]
    cases hp : w.parseTemplate f.format with
    | error e =>
      constructor
      · intro _; exact ⟨e, rfl⟩
      · intro _; exact ⟨_, rfl⟩
    | ok t =>
      dsimp only
      by_cases hs : f.dest = "-"
      · simp [hs]
      · simp only [hs, if_false]
        cases hc : w.create f.dest with
        | some e => simp
        | none => simp

theorem openDest_opened (w : World) (f : Flags) (s1 : ExportState) :
    (∀ s4, runExport.openDest w f s1 = .ok s4 →
        s4.opened = s1.opened ∨ s4.opened = s1.opened ++ [f.dest]) ∧
      (∀ r, runExport.openDest w f s1 = .error r →
        r.2.opened = s1.opened ∨ r.2.opened = s1.opened ++ [f.dest]) := by
  unfold runExport.openDest
  by_cases hd : f.dest = ""
  · simp only [hd, ne_eq, not_true_eq_false, if_false]
    constructor
    · intro s4 h
      injection h with h
      subst h
      exact Or.inl rfl
    · intro r h
      cases h
  · simp only [ne_eq, hd, not_false_eq_true, if_true]
    split
    · constructor
      · intro s4 h
        cases h
      · intro r h
        injection h with h
        subst h
        exact Or.inl rfl
    · cases hp : w.parseTemplate f.format with
      | error e =>
        constructor
        · intro s4 h
          cases h
        · intro r h
          injection h with h
          subst h
          exact Or.inl rfl
      | ok t =>
        dsimp only
        by_cases hs : f.dest = "-"
        · simp only [hs, if_true]
          constructor
          · intro s4 h
            injection h with h
            subst h
            exact Or.inl rfl
          · intro r h
            cases h
        · simp only [hs, if_false]
          cases hc : w.create f.dest with
          | some e =>
            constructor
            · intro s4 h
              cases h
            · intro r h
              injection h with h
              subst h
              exact Or.inr rfl
          | none =>
            constructor
            · intro s4 h
              injection h with h
              subst h
              exact Or.inr rfl
            · intro r h
              cases h

theorem scan_opened_exact (w : World) (f : Flags) (s4 : ExportState) :
    ((runExport.scan w f s4).2.opened = s4.opened ++ [runExport.indexPath f] ∧
        (runExport.scan w f s4).1 ≠ .returned true) ∨
      (runExport.scan w f s4).2.opened = s4.opened ++ [runExport.indexPath f,
        Join [f.dir, dataFileName f.collection (toUint32 f.volumeId)]] := by
  unfold runExport.scan
  dsimp only
  cases ho : w.openFile (runExport.indexPath f) with
  | some e => left; simp
  | none =>
    cases hl : w.loadNeedleMap (runExport.indexPath f) with
    | error e => left; simp
    | ok nm =>
      right
      have key : ∀ r : Option String × Version × ExportState,
          (match r.1 with
            | some e => (Outcome.fatal ("Export Volume File [ERROR] " ++ e ++ "\n"), r.2.2)
            | none => (Outcome.returned true, r.2.2)).2 = r.2.2 := by
        intro r
        cases r.1 <;> rfl
      dsimp only
      rw [key]
      cases hv : w.volume f.dir f.collection (toUint32 f.volumeId) with
      | error e => simp [ScanVolumeFile]
      | ok v =>
        simp only [ScanVolumeFile]
        rw [scanNeedles_versioned]
        have hop := scanNeedles_opened w nm (toUint32 f.volumeId) v.version v.records
          { s4 with opened := s4.opened ++ [runExport.indexPath f] ++
            [Join [f.dir, dataFileName f.collection (toUint32 f.volumeId)]] }
        cases hr : (scanNeedles (runExport.onNeedle w nm (toUint32 f.volumeId) v.version)
            v.records
            { s4 with opened := s4.opened ++ [runExport.indexPath f] ++
              [Join [f.dir, dataFileName f.collection (toUint32 f.volumeId)]] }).1 with
        | some e => simpa using hop
        | none => simpa using hop

/-- The files a run opens: the tar file named by `-o`, the index file and the
data file, and nothing else; a run that returns true has opened the index file. -/
theorem runExport_opened (w : World) (f : Flags) :
    (∀ p ∈ (runExport w f ExportState.init).2.opened,
        p = f.dest ∨ p = runExport.indexPath f ∨
          p = Join [f.dir, dataFileName f.collection (toUint32 f.volumeId)]) ∧
      ((runExport w f ExportState.init).1 = .returned true →
        runExport.indexPath f ∈ (runExport w f ExportState.init).2.opened) := by
  unfold runExport
  cases hp : runExport.parseNewer w f ExportState.init with
  | error e => simp [ExportState.init]
  | ok s1 =>
    obtain ⟨hs1, -, -⟩ := parseNewer_ok w f ExportState.init s1 hp
    have ho1 : s1.opened = [] := by rw [hs1]; rfl
    dsimp only
    by_cases hv : f.volumeId = -1
    · simp [hv, ho1]
    · simp only [hv, if_false]
      cases hd : runExport.openDest w f s1 with
      | error r =>
        obtain ⟨-, -, -, hne⟩ := openDest_error w f s1 r hd
        dsimp only
        refine ⟨?_, fun h => absurd h hne⟩
        rcases (openDest_opened w f s1).2 r hd with h | h
        · rw [h, ho1]; simp
        · rw [h, ho1]; simp
      | ok s4 =>
        dsimp only
        have ho4 := (openDest_opened w f s1).1 s4 hd
        rw [ho1] at ho4
        rcases scan_opened_exact w f s4 with ⟨h, hne⟩ | h
        · refine ⟨?_, fun hr => absurd hr hne⟩
          rw [h]
          rcases ho4 with h4 | h4 <;> rw [h4] <;> simp
        · rw [h]
          rcases ho4 with h4 | h4 <;> rw [h4] <;> simp

/-! ## Theorems: `fs.cd` -/

/-- C7: `commandFsCd.Do` either returns nil with `FilerHost`, `FilerPort` and
`Directory` set to the server, port and path that `parseUrl` gave for the
input, or returns an error with the environment unchanged; it returns nil
exactly when `parseUrl` succeeds and the path is "/" or `checkDirectory`
succeeds; and the directory check is issued exactly when `parseUrl` succeeds
with a path other than "/". -/
theorem commandFsCd_Do_atomic (w : ShellWorld) (args : List String) (env : commandEnv) :
    ((commandFsCd.Do w args env).err = none ∧
        (commandFsCd.Do w args env).env.option =
          { env.option with
            FilerHost := (w.parseUrl env (w.findInputDirectory args)).filerServer,
            FilerPort := (w.parseUrl env (w.findInputDirectory args)).filerPort,
            Directory := (w.parseUrl env (w.findInputDirectory args)).path }
      ∨ (commandFsCd.Do w args env).err ≠ none ∧ (commandFsCd.Do w args env).env = env)
    ∧ ((commandFsCd.Do w args env).err = none ↔
        (w.parseUrl env (w.findInputDirectory args)).err = none ∧
          ((w.parseUrl env (w.findInputDirectory args)).path = "/" ∨
            w.checkDirectory env (w.parseUrl env (w.findInputDirectory args)).filerServer
              (w.parseUrl env (w.findInputDirectory args)).filerPort
              (w.parseUrl env (w.findInputDirectory args)).path = none))
    ∧ (commandFsCd.Do w args env).checks =
        (if (w.parseUrl env (w.findInputDirectory args)).err = none ∧
            (w.parseUrl env (w.findInputDirectory args)).path ≠ "/" then
          [((w.parseUrl env (w.findInputDirectory args)).filerServer,
            (w.parseUrl env (w.findInputDirectory args)).filerPort,
            (w.parseUrl env (w.findInputDirectory args)).path)]
        else []) := by
  generalize hu : w.parseUrl env (w.findInputDirectory args) = u
  unfold commandFsCd.Do
  simp only [hu]
  cases herr : u.err with
  | some e => simp
  | none =>
    by_cases hp : u.path = "/"
    · simp [hp]
    · cases hc : w.checkDirectory env u.filerServer u.filerPort u.path with
      | none => simp [hp, hc]
      | some e => simp [hp, hc]

/-! ## Theorems: the export command -/

/-- C1: export soundness. Whatever `newerThanUnix` holds, the scan callback
either leaves the log of records handed to `walker` as it was, or adds exactly
`(n, offset)` to it, and then the needle map has `n.Id` with a size above zero
and `Offset * 8 = offset` as an exact integer product; hence the offset is a
multiple of 8, not negative and below 2^35. -/
theorem export_soundness (w : World) (nm : NeedleMap) (vid : Nat) (version : Version)
    (n : Needle) (offset : Int) (s : ExportState) :
    (runExport.onNeedle w nm vid version n offset s).2.walked = s.walked ∨
      ((runExport.onNeedle w nm vid version n offset s).2.walked = s.walked ++ [(n, offset)] ∧
        ∃ nv, nm.Get n.Id = some nv ∧ 0 < nv.Size.val ∧ (nv.Offset.val : Int) * 8 = offset ∧
          offset % 8 = 0 ∧ 0 ≤ offset ∧ offset < 2 ^ 35) := by
  by_cases hk : (isLive nm (n, offset) && !tooOld s.newerThanUnix n) = true
  · right
    rw [onNeedle_of_kept w nm vid version n offset s hk, walker_walked]
    refine ⟨rfl, ?_⟩
    simp only [isLive, Bool.and_eq_true] at hk
    obtain ⟨hl, -⟩ := hk
    cases hg : nm.Get n.Id with
    | none => simp [hg] at hl
    | some nv =>
      simp only [hg, decide_eq_true_eq] at hl
      have hb := nv.Offset.isLt
      refine ⟨nv, rfl, hl.1, hl.2, ?_, ?_, ?_⟩ <;> omega
  · left
    have hk2 : (isLive nm (n, offset) && !tooOld s.newerThanUnix n) = false := by
      simpa using hk
    rw [onNeedle_of_dropped w nm vid version n offset s hk2]

/-- C2, as stated, fails: with `-newer=1970-01-01T00:01:40` on the sample
volume the run returns true, the second record of id 7 is in the data file at
byte 32 and the map entry of id 7 is `(32/8, 2)`, yet the record is not handed
to `walker` (its last-modified time, second 50, is below the threshold). -/
theorem export_exactness_fails_with_newer :
    (runExport sampleWorld { sampleFlags with newer := "1970-01-01T00:01:40" }
        ExportState.init).1 = .returned true ∧
      (needle7b, 32) ∈ sampleRecords ∧
      sampleMap.Get needle7b.Id = some { Key := 7, Offset := 4, Size := 2 } ∧
      liveBySpec sampleMap (needle7b, 32) = true ∧
      (needle7b, 32) ∉
        (runExport sampleWorld { sampleFlags with newer := "1970-01-01T00:01:40" }
          ExportState.init).2.walked := by
  decide

/-- C2, amended: for a needle map `nm` and a data file whose header offsets are
multiples of 8, every pair a run hands to `walker` is a scanned pair with
`map[id] == (offset/8, nonzero size)` that the `-newer` filter does not skip;
when the run returns true (no callback error ended the scan early) the pairs
handed to `walker` are exactly those, in file order; and with `-newer` empty
they are exactly the scanned pairs with `map[id] == (offset/8, nonzero size)`. -/
theorem export_exactness (w : World) (f : Flags) (nm : NeedleMap) (v : VolumeScan)
    (hnm : w.loadNeedleMap (runExport.indexPath f) = .ok nm)
    (hv : w.volume f.dir f.collection (toUint32 f.volumeId) = .ok v)
    (h8 : ∀ p ∈ v.records, p.2 % 8 = 0) :
    (∀ p ∈ (runExport w f ExportState.init).2.walked,
        p ∈ v.records ∧ liveBySpec nm p = true ∧
          tooOld (runExport w f ExportState.init).2.newerThanUnix p.1 = false) ∧
      ((runExport w f ExportState.init).1 = .returned true →
        (runExport w f ExportState.init).2.walked =
          v.records.filter (fun p => liveBySpec nm p &&
            !tooOld (runExport w f ExportState.init).2.newerThanUnix p.1)) ∧
      ((runExport w f ExportState.init).1 = .returned true → f.newer = "" →
        (runExport w f ExportState.init).2.walked = v.records.filter (liveBySpec nm)) := by
  have hfilter : ∀ t : Int,
      v.records.filter (fun p => liveBySpec nm p && !tooOld t p.1) = exported nm t v.records := by
    intro t
    unfold exported
    apply List.filter_congr
    intro p hp
    rw [liveBySpec_eq_isLive nm p (h8 p hp)]
  rcases runExport_walked w f ExportState.init with
    ⟨h1, h2⟩ | ⟨nm1, v1, visited, rest, hl, hvol, hsplit, hwk, hret⟩
  · have hnil : (runExport w f ExportState.init).2.walked = [] := h1
    refine ⟨?_, fun h => absurd h h2, fun h => absurd h h2⟩
    rw [hnil]
    intro p hp
    simp at hp
  · rw [hnm] at hl
    rw [hv] at hvol
    have e1 : nm1 = nm := by
      injection hl with h
      exact h.symm
    have e2 : v1 = v := by
      injection hvol with h
      exact h.symm
    subst e1 e2
    have hwk2 : (runExport w f ExportState.init).2.walked =
        exported nm1 (runExport w f ExportState.init).2.newerThanUnix visited := by
      rw [hwk]
      rfl
    refine ⟨?_, ?_, ?_⟩
    · intro p hp
      rw [hwk2, mem_exported] at hp
      obtain ⟨hm, hlive, hold⟩ := hp
      have hrec : p ∈ v1.records := by
        rw [hsplit]
        exact List.mem_append_left _ hm
      exact ⟨hrec, by rw [liveBySpec_eq_isLive nm1 p (h8 p hrec)]; exact hlive, hold⟩
    · intro hok
      obtain ⟨hr, -⟩ := hret hok
      rw [hr, List.append_nil] at hsplit
      rw [hfilter, hsplit]
      exact hwk2
    · intro hok hnewer
      obtain ⟨hr, -⟩ := hret hok
      rw [hr, List.append_nil] at hsplit
      have hT : (runExport w f ExportState.init).2.newerThanUnix = -1 :=
        (runExport_newerThanUnix w f ExportState.init).1 hnewer
      rw [hwk2, hT, ← hsplit]
      unfold exported
      apply List.filter_congr
      intro p hp
      rw [liveBySpec_eq_isLive nm1 p (h8 p hp)]
      simp [tooOld]

/-- C2, amended, on the sample volume listed without `-newer`: the map and the
records are those of the sample, every offset is a multiple of 8, and the run
hands to `walker` the second record of id 7 and the records of ids 9 and 11. -/
theorem export_exactness_witness :
    sampleWorld.loadNeedleMap (runExport.indexPath sampleFlags) = .ok sampleMap ∧
      sampleWorld.volume sampleFlags.dir sampleFlags.collection (toUint32 sampleFlags.volumeId) =
        .ok { version := 2, records := sampleRecords, tail := none } ∧
      (∀ p ∈ sampleRecords, p.2 % 8 = 0) ∧
      (runExport sampleWorld sampleFlags ExportState.init).1 = .returned true ∧
      sampleFlags.newer = "" ∧
      (runExport sampleWorld sampleFlags ExportState.init).2.walked =
        sampleRecords.filter (liveBySpec sampleMap) ∧
      sampleRecords.filter (liveBySpec sampleMap) =
        [(needle7b, 32), (needle9, 56), (needle11, 104)] :=
  ⟨rfl, rfl, by decide, by decide, rfl,
    (export_exactness sampleWorld sampleFlags sampleMap
      { version := 2, records := sampleRecords, tail := none } rfl rfl (by decide)).2.2
        (by decide) rfl,
    by decide⟩

/-- C3: shadowed and deleted records are dead. When the header offsets of the
scanned records are pairwise distinct, a run hands at most one record per
needle id to `walker`; and a record whose id is absent from the needle map, or
whose map entry has size 0, or whose map entry points at another offset, is
never handed to `walker`. -/
theorem export_shadowed_dead (w : World) (f : Flags) (v : VolumeScan)
    (hv : w.volume f.dir f.collection (toUint32 f.volumeId) = .ok v)
    (hd : (v.records.map Prod.snd).Nodup) :
    (∀ id : Uint64,
        ((runExport w f ExportState.init).2.walked.filter
          (fun p => decide (p.1.Id = id))).length ≤ 1) ∧
      (∀ nm, w.loadNeedleMap (runExport.indexPath f) = .ok nm →
        ∀ (n : Needle) (offset : Int),
          (nm.Get n.Id = none ∨
            ∃ nv, nm.Get n.Id = some nv ∧
              (nv.Size.val = 0 ∨ (nv.Offset.val : Int) * 8 ≠ offset)) →
          (n, offset) ∉ (runExport w f ExportState.init).2.walked) := by
  rcases runExport_walked w f ExportState.init with
    ⟨h1, -⟩ | ⟨nm1, v1, visited, rest, hl, hvol, hsplit, hwk, -⟩
  · have hnil : (runExport w f ExportState.init).2.walked = [] := h1
    rw [hnil]
    simp
  · rw [hv] at hvol
    have e2 : v1 = v := by
      injection hvol with h
      exact h.symm
    subst e2
    have hwk2 : (runExport w f ExportState.init).2.walked =
        exported nm1 (runExport w f ExportState.init).2.newerThanUnix visited := by
      rw [hwk]
      rfl
    constructor
    · intro id
      rw [hwk2]
      apply length_le_one_of_nodup_const Prod.snd
      · have hsub : ((exported nm1 (runExport w f ExportState.init).2.newerThanUnix
            visited).filter (fun p => decide (p.1.Id = id))).Sublist v1.records := by
          refine (List.filter_sublist _).trans ((exported_sublist _ _ _).trans ?_)
          rw [hsplit]
          exact List.sublist_append_left visited rest
        exact hd.sublist (hsub.map Prod.snd)
      · intro a ha b hb
        simp only [List.mem_filter, decide_eq_true_eq, mem_exported] at ha hb
        obtain ⟨⟨-, hla, -⟩, hida⟩ := ha
        obtain ⟨⟨-, hlb, -⟩, hidb⟩ := hb
        obtain ⟨nva, hga, -, hoa⟩ := (isLive_iff nm1 a).mp hla
        obtain ⟨nvb, hgb, -, hob⟩ := (isLive_iff nm1 b).mp hlb
        rw [hida] at hga
        rw [hidb, hga] at hgb
        injection hgb with hnv
        rw [← hoa, ← hob, hnv]
    · intro nm hnm n offset hdead hmem
      rw [hnm] at hl
      have e1 : nm1 = nm := by
        injection hl with h
        exact h.symm
      subst e1
      rw [hwk2, mem_exported] at hmem
      obtain ⟨-, hlive, -⟩ := hmem
      obtain ⟨nv, hg, hsz, hoff⟩ := (isLive_iff nm1 (n, offset)).mp hlive
      rcases hdead with hnone | ⟨nv2, hg2, hbad⟩
      · rw [hnone] at hg
        cases hg
      · rw [hg2] at hg
        injection hg with hnv
        subst hnv
        rcases hbad with h0 | hne
        · omega
        · exact hne hoff

/-- C3 on the sample volume, whose header offsets 8, 32, 56, 80 and 104 are
pairwise distinct: at most one record of id 7 is handed to `walker`, and
neither its first record (at byte 8, while the map points at byte 32) nor the
record of the deleted id 5 is. -/
theorem export_shadowed_dead_witness :
    sampleWorld.volume sampleFlags.dir sampleFlags.collection (toUint32 sampleFlags.volumeId) =
        .ok { version := 2, records := sampleRecords, tail := none } ∧
      (sampleRecords.map Prod.snd).Nodup ∧
      ((runExport sampleWorld sampleFlags ExportState.init).2.walked.filter
          (fun p => decide (p.1.Id = 7))).length ≤ 1 ∧
      (needle7a, 8) ∉ (runExport sampleWorld sampleFlags ExportState.init).2.walked ∧
      (needle5, 80) ∉ (runExport sampleWorld sampleFlags ExportState.init).2.walked :=
  ⟨rfl, by decide,
    (export_shadowed_dead sampleWorld sampleFlags
      { version := 2, records := sampleRecords, tail := none } rfl (by decide)).1 7,
    (export_shadowed_dead sampleWorld sampleFlags
      { version := 2, records := sampleRecords, tail := none } rfl (by decide)).2
        sampleMap rfl needle7a 8
        (Or.inr ⟨{ Key := 7, Offset := 4, Size := 2 }, rfl, Or.inr (by decide)⟩),
    (export_shadowed_dead sampleWorld sampleFlags
      { version := 2, records := sampleRecords, tail := none } rfl (by decide)).2
        sampleMap rfl needle5 80 (Or.inl rfl)⟩

/-- C4, as stated, fails: with `-newer=1970-01-01T00:01:40` (second 100) on the
sample volume, the live needle 9, which carries no last-modified time, and the
live needle 11, last modified at second 100 exactly, are both handed to
`walker`, and neither has a last-modified time above 100. -/
theorem newer_filter_not_strict :
    sampleWorld.parseTime "1970-01-01T00:01:40" = .ok 100 ∧
      (needle9, 56) ∈
        (runExport sampleWorld { sampleFlags with newer := "1970-01-01T00:01:40" }
          ExportState.init).2.walked ∧
      needle9.HasLastModifiedDate = false ∧ ¬ (100 < needle9.LastModified.val) ∧
      (needle11, 104) ∈
        (runExport sampleWorld { sampleFlags with newer := "1970-01-01T00:01:40" }
          ExportState.init).2.walked ∧
      needle11.HasLastModifiedDate = true ∧ ¬ (100 < needle11.LastModified.val) :=
  ⟨rfl, by decide, by decide, by decide, by decide, by decide, by decide⟩

/-- C4, amended: when `-newer` parses to a time `T` (Unix seconds, an `int64`),
the threshold of the run is `T`; the run hands a needle that carries a
last-modified time to `walker` only if that time is at least `T`; and a run
that returns true hands to `walker` every scanned live needle that carries no
last-modified time or whose last-modified time is above `T`. -/
theorem newer_filter (w : World) (f : Flags) (T : Int)
    (hn : f.newer ≠ "") (hT : w.parseTime f.newer = .ok T)
    (h1 : T < 9223372036854775808) :
    (runExport w f ExportState.init).2.newerThanUnix = T ∧
      (∀ p ∈ (runExport w f ExportState.init).2.walked,
        p.1.HasLastModifiedDate = true → T ≤ (p.1.LastModified.val : Int)) ∧
      (∀ (nm : NeedleMap) (v : VolumeScan),
        w.loadNeedleMap (runExport.indexPath f) = .ok nm →
        w.volume f.dir f.collection (toUint32 f.volumeId) = .ok v →
        (runExport w f ExportState.init).1 = .returned true →
        ∀ p ∈ v.records, isLive nm p = true →
          (p.1.HasLastModifiedDate = false ∨ T < (p.1.LastModified.val : Int)) →
          p ∈ (runExport w f ExportState.init).2.walked) := by
  have hthr : (runExport w f ExportState.init).2.newerThanUnix = T :=
    (runExport_newerThanUnix w f ExportState.init).2 T hn hT
  refine ⟨hthr, ?_, ?_⟩
  · intro p hp hlm
    rcases runExport_walked w f ExportState.init with
      ⟨hnil, -⟩ | ⟨nm, v, visited, rest, -, -, -, hwk, -⟩
    · have hnil2 : (runExport w f ExportState.init).2.walked = [] := hnil
      rw [hnil2] at hp
      simp at hp
    · have hwk2 : (runExport w f ExportState.init).2.walked = exported nm T visited := by
        rw [hwk, hthr]
        rfl
      rw [hwk2, mem_exported] at hp
      obtain ⟨-, -, hold⟩ := hp
      simp only [tooOld, decide_eq_false_iff_not, not_and, not_lt] at hold
      by_cases h0 : 0 ≤ T
      · have hu := toUint64_of_nonneg T h0 h1
        have := hold (by omega) hlm
        omega
      · omega
  · intro nm v hnm hv hok p hp hlive hkeep
    rcases runExport_walked w f ExportState.init with
      ⟨-, hne⟩ | ⟨nm1, v1, visited, rest, hl, hvol, hsplit, hwk, hret⟩
    · exact absurd hok hne
    · rw [hnm] at hl
      rw [hv] at hvol
      have e1 : nm1 = nm := by
        injection hl with h
        exact h.symm
      have e2 : v1 = v := by
        injection hvol with h
        exact h.symm
      subst e1 e2
      obtain ⟨hr, -⟩ := hret hok
      rw [hr, List.append_nil] at hsplit
      have hwk2 : (runExport w f ExportState.init).2.walked = exported nm1 T v1.records := by
        rw [hwk, hthr, hsplit]
        rfl
      rw [hwk2, mem_exported]
      refine ⟨hp, hlive, ?_⟩
      simp only [tooOld, decide_eq_false_iff_not, not_and, not_lt]
      intro h0 hlm
      rcases hkeep with hno | hgt
      · rw [hno] at hlm
        cases hlm
      · have hu := toUint64_of_nonneg T h0 h1
        omega

/-- C4, amended, on the sample volume with `-newer=1970-01-01T00:01:40`: the
threshold of the run is second 100, and the run, which returns true, hands to
`walker` needle 9, which is live and carries no last-modified time. -/
theorem newer_filter_witness :
    ({ sampleFlags with newer := "1970-01-01T00:01:40" } : Flags).newer ≠ "" ∧
      sampleWorld.parseTime "1970-01-01T00:01:40" = .ok 100 ∧
      (runExport sampleWorld { sampleFlags with newer := "1970-01-01T00:01:40" }
        ExportState.init).1 = .returned true ∧
      (needle9, 56) ∈ sampleRecords ∧ isLive sampleMap (needle9, 56) = true ∧
      needle9.HasLastModifiedDate = false ∧
      (needle9, 56) ∈
        (runExport sampleWorld { sampleFlags with newer := "1970-01-01T00:01:40" }
          ExportState.init).2.walked :=
  ⟨by decide, rfl, by decide, by decide, by decide, by decide,
    (newer_filter sampleWorld { sampleFlags with newer := "1970-01-01T00:01:40" } 100
      (by decide) rfl (by decide)).2.2 sampleMap
      { version := 2, records := sampleRecords, tail := none } rfl rfl (by decide)
      (needle9, 56) (by decide) (by decide) (Or.inl (by decide))⟩

/-- C5, as stated, fails: with `-dir=/data`, volume 1 and the collection `../x`
the run opens `/x_1.idx`, whose base name is `x_1.idx` and not `../x_1.idx`,
and which is not under `/data`; with the collection `a/b` it opens
`/data/a/b_1.idx`, whose base name is `b_1.idx`. -/
theorem index_file_name_fails_with_slash :
    indexFileName "../x" 1 = "../x_1.idx" ∧
      runExport.indexPath { sampleFlags with collection := "../x" } = "/x_1.idx" ∧
      (runExport sampleWorld { sampleFlags with collection := "../x" }
        ExportState.init).2.opened = ["/x_1.idx", "/x_1.dat"] ∧
      Base (runExport.indexPath { sampleFlags with collection := "../x" }) = "x_1.idx" ∧
      Base (runExport.indexPath { sampleFlags with collection := "../x" }) ≠
        indexFileName "../x" 1 ∧
      runExport.indexPath { sampleFlags with collection := "a/b" } = "/data/a/b_1.idx" ∧
      Base (runExport.indexPath { sampleFlags with collection := "a/b" }) ≠
        indexFileName "a/b" 1 := by
  decide

/-- C5, amended: for every collection string `c` and volume id `v` the index
file of a run is `path.Join` of the `-dir` directory and the name `<c>_<v>.idx`
(`<v>.idx` when `c` is empty, `v` in decimal); when `c` contains no slash, that
file has this name as its base name and lies directly under the cleaned `-dir`
directory. A run that returns true has opened that file, and a run opens no
file other than the `-o` file, that index file and the data file. -/
theorem index_file_name (f : Flags) :
    runExport.indexPath f = Join [f.dir, indexFileName f.collection f.volumeId] ∧
      ('/' ∉ f.collection.data →
        Base (runExport.indexPath f) = indexFileName f.collection f.volumeId ∧
        runExport.indexPath f = underDir f.dir (indexFileName f.collection f.volumeId)) ∧
      (∀ w : World, (runExport w f ExportState.init).1 = .returned true →
        runExport.indexPath f ∈ (runExport w f ExportState.init).2.opened) ∧
      (∀ w : World, ∀ p ∈ (runExport w f ExportState.init).2.opened,
        p = f.dest ∨ p = runExport.indexPath f ∨
          p = Join [f.dir, dataFileName f.collection (toUint32 f.volumeId)]) := by
  refine ⟨indexPath_eq f, ?_, fun w => (runExport_opened w f).2,
    fun w => (runExport_opened w f).1⟩
  intro hc
  have hp := plainElement_indexFileName f.collection f.volumeId hc
  have hj : runExport.indexPath f = underDir f.dir (indexFileName f.collection f.volumeId) := by
    rw [indexPath_eq, Join_element _ _ hp]
  exact ⟨by rw [hj, Base_underDir _ _ hp], hj⟩

/-- C5, amended, on the sample command line: collection `pics`, which has no
slash, and volume 1 under `/data` give `/data/pics_1.idx`, with base name
`pics_1.idx`. -/
theorem index_file_name_witness :
    '/' ∉ sampleFlags.collection.data ∧
      indexFileName sampleFlags.collection sampleFlags.volumeId = "pics_1.idx" ∧
      underDir sampleFlags.dir "pics_1.idx" = "/data/pics_1.idx" ∧
      Base (runExport.indexPath sampleFlags) =
        indexFileName sampleFlags.collection sampleFlags.volumeId ∧
      runExport.indexPath sampleFlags =
        underDir sampleFlags.dir (indexFileName sampleFlags.collection sampleFlags.volumeId) :=
  ⟨by decide, by decide, by decide, (index_file_name sampleFlags).2.1 (by decide)⟩

/-- C6, as stated, fails: with `-o=out.tar`, which ends in `.tar`, no `-newer`,
volume id 1 and the file name template `{{`, which does not parse, the run
returns false and has opened no file. -/
theorem output_name_validation_fails :
    ({ sampleFlags with dest := "out.tar", format := "\x7b\x7b" } : Flags).dest ≠ "" ∧
      ({ sampleFlags with dest := "out.tar", format := "\x7b\x7b" } : Flags).newer = "" ∧
      ({ sampleFlags with dest := "out.tar", format := "\x7b\x7b" } : Flags).volumeId ≠ -1 ∧
      HasSuffix "out.tar" ".tar" = true ∧
      (runExport sampleWorld { sampleFlags with dest := "out.tar", format := "\x7b\x7b" }
        ExportState.init).1 = .returned false ∧
      (runExport sampleWorld { sampleFlags with dest := "out.tar", format := "\x7b\x7b" }
        ExportState.init).2.opened = [] := by
  decide

/-- C6, amended: with a `-newer` that is empty or parses and a volume id other
than -1, a run with a non-empty `-o` value `d` returns false exactly when `d`
is neither `-` nor ends in `.tar`, or the `-fileNameFormat` template does not
parse, and it has then opened no file; a run with an empty `-o` creates no tar
writer and prints one listing line per record handed to `walker`. -/
theorem output_name_validation (w : World) (f : Flags)
    (hnewer : f.newer = "" ∨ ∃ t, w.parseTime f.newer = .ok t) (hvid : f.volumeId ≠ -1) :
    (f.dest ≠ "" →
        ((runExport w f ExportState.init).1 = .returned false ↔
          ((f.dest ≠ "-" ∧ ¬ ∃ p : String, f.dest = p ++ ".tar") ∨
            ∃ e, w.parseTemplate f.format = .error e)) ∧
        ((runExport w f ExportState.init).1 = .returned false →
          (runExport w f ExportState.init).2.opened = [])) ∧
      (f.dest = "" →
        (runExport w f ExportState.init).2.tarFh = none ∧
        ∃ version, (runExport w f ExportState.init).2.stdout =
          (runExport w f ExportState.init).2.walked.map
            (fun p => listingOf w (toUint32 f.volumeId) version p.1)) := by
  obtain ⟨s1, hp⟩ := parseNewer_isOk w f ExportState.init hnewer
  obtain ⟨hs1, -, -⟩ := parseNewer_ok w f ExportState.init s1 hp
  have hrun : runExport w f ExportState.init =
      match runExport.openDest w f s1 with
      | .error r => r
      | .ok s4 => runExport.scan w f s4 := by
    unfold runExport
    rw [hp]
    simp only [hvid, if_false]
  constructor
  · intro hd
    rw [hrun]
    have hiff := openDest_returned_false_iff w f s1 hd
    rw [HasSuffix_iff] at hiff
    cases hod : runExport.openDest w f s1 with
    | error r =>
      obtain ⟨o, s2⟩ := r
      dsimp only
      rw [hod] at hiff
      constructor
      · rw [← hiff]
        constructor
        · intro ho
          subst ho
          exact ⟨s2, rfl⟩
        · rintro ⟨s3, h3⟩
          injection h3 with h3
          injection h3 with h3
      · intro ho
        have := (openDest_error w f s1 (o, s2) hod).2.2.1 ho
        rw [this, hs1]
        rfl
    | ok s4 =>
      dsimp only
      rw [hod] at hiff
      have hne := (scan_spec w f s4).1
      constructor
      · rw [← hiff]
        constructor
        · intro h; exact absurd h hne
        · rintro ⟨s3, h3⟩
          cases h3
      · intro h; exact absurd h hne
  · intro hd
    rw [hrun]
    cases hod : runExport.openDest w f s1 with
    | error r =>
      exfalso
      unfold runExport.openDest at hod
      simp [hd] at hod
    | ok s4 =>
      dsimp only
      have h4 : s4 = s1 := (openDest_ok w f s1 s4 hod).2.2 hd
      subst h4
      apply scan_listing
      · rw [hs1]; rfl
      · rw [hs1]; rfl
      · rw [hs1]; rfl

/-- C6, amended, on the sample volume with `-o=out.txt`: the run returns false
and has opened no file. -/
theorem output_name_validation_witness :
    (sampleFlags.newer = "" ∨ ∃ t, sampleWorld.parseTime sampleFlags.newer = .ok t) ∧
      ({ sampleFlags with dest := "out.txt" } : Flags).volumeId ≠ -1 ∧
      (runExport sampleWorld { sampleFlags with dest := "out.txt" } ExportState.init).1 =
        .returned false ∧
      (runExport sampleWorld { sampleFlags with dest := "out.txt" } ExportState.init).2.opened
        = [] :=
  ⟨Or.inl rfl, by decide, by decide,
    ((output_name_validation sampleWorld { sampleFlags with dest := "out.txt" }
      (Or.inl rfl) (by decide)).1 (by decide)).2 (by decide)⟩

/-- C8, as stated, fails: for a needle with the last-modified flag set and
`LastModified` equal to 2^63, `walker` in tar mode writes an entry whose
`ModTime` is `time.Unix(-2^63, 0)`, because `int64(n.LastModified)` wraps, and
not 2^63 seconds. -/
theorem tar_entry_modtime_wraps :
    needleFar.HasLastModifiedDate = true ∧
      needleFar.LastModified.val = 9223372036854775808 ∧
      (walker sampleWorld 1 needleFar 2 tarModeState).2.tarFh =
        some { file := none
               calls :=
                 [TarCall.WriteHeader
                    { Name := "x/e", Size := 1, Mode := 0o644, Uid := 0, Gid := 0,
                      Typeflag := TypeReg,
                      ModTime := Time.Unix (-9223372036854775808) 0,
                      AccessTime := Time.zero,
                      ChangeTime := Time.Unix (-9223372036854775808) 0 },
                  TarCall.Write [7]] } ∧
      Time.Unix (-9223372036854775808) 0 ≠ Time.Unix (needleFar.LastModified.val : Int) 0 := by
  decide

/-- C8, amended: for a needle `n` and a template that renders to `out`, `walker`
in tar mode makes exactly one `WriteHeader` call, followed by one `Write` of
`n.Data` when the header was accepted. The header has `Size = len(n.Data)`; its
`ModTime` is `int64(n.LastModified)` seconds when the last-modified flag is set,
which is `n.LastModified` seconds whenever `n.LastModified < 2^63`, and the Unix
epoch otherwise; its name is `out` when `n` is not gzipped or `path.Ext(out)`
is `.gz`, and `out + ".gz"` otherwise. So the name of a gzipped needle has
extension `.gz` and the name of a needle that is not gzipped is `out`. -/
theorem tar_entry_framing (w : World) (vid : Nat) (n : Needle) (version : Version)
    (s : ExportState) (tw : TarWriter) (t : Template) (out : String)
    (htar : s.tarFh = some tw) (htmpl : s.fnTmpl = some t)
    (hrender : w.execute t
      { Name := n.Name, Id := n.Id, Mime := n.Mime, Key := w.fileIdString vid n } =
        (out, none)) :
    ∃ hdr : TarHeader,
      (walker w vid n version s).2.tarFh =
        some { tw with calls := tw.calls ++ TarCall.WriteHeader hdr ::
          (if w.writeHeader tw hdr = none then [TarCall.Write n.Data] else []) } ∧
      hdr.Size = (n.Data.length : Int) ∧
      hdr.ModTime =
        (if n.HasLastModifiedDate = true then Time.Unix (toInt64 n.LastModified.val) 0
         else Time.Unix 0 0) ∧
      (n.HasLastModifiedDate = true → n.LastModified.val < 9223372036854775808 →
        hdr.ModTime = Time.Unix (n.LastModified.val : Int) 0) ∧
      hdr.Name = (if n.IsGzipped = false ∨ Ext out = ".gz" then out else out ++ ".gz") ∧
      (n.IsGzipped = true → Ext hdr.Name = ".gz") ∧
      (n.IsGzipped = false → hdr.Name = out) := by
  unfold walker
  simp only [htar, htmpl, hrender]
  refine ⟨{ s.tarHeader with
      Name := if (n.IsGzipped && Ext out != ".gz") = true then out ++ ".gz" else out
      Size := (n.Data.length : Int)
      ModTime := if n.HasLastModifiedDate = true then Time.Unix (toInt64 n.LastModified.val) 0
                 else Time.Unix 0 0
      ChangeTime := if n.HasLastModifiedDate = true
                    then Time.Unix (toInt64 n.LastModified.val) 0
                    else Time.Unix 0 0 }, ?_, rfl, rfl, ?_, ?_, ?_, ?_⟩
  · split
    · rename_i e hwh
      rw [hwh]
      simp
    · rename_i hwh
      rw [hwh]
      simp
  · intro hlm hlt
    rw [if_pos hlm, toInt64_of_lt _ hlt]
  · by_cases hg : n.IsGzipped = true
    · by_cases he : Ext out = ".gz"
      · simp [hg, he]
      · simp [hg, he]
    · simp [hg]
  · intro hg
    by_cases he : Ext out = ".gz"
    · simp [hg, he]
    · simp [hg, he, Ext_append_gz]
  · intro hg
    simp [hg]

/-- C8, amended, on needle 11 of the sample volume (gzipped, last modified at
second 100, rendered as `text/plain/d.txt`): one entry `text/plain/d.txt.gz`. -/
theorem tar_entry_framing_witness :
    tarModeState.tarFh = some { file := none, calls := [] } ∧
      tarModeState.fnTmpl = some { src := defaultFnFormat } ∧
      sampleWorld.execute { src := defaultFnFormat }
        { Name := needle11.Name, Id := needle11.Id, Mime := needle11.Mime,
          Key := sampleWorld.fileIdString 1 needle11 } = ("text/plain/d.txt", none) ∧
      ∃ hdr : TarHeader,
        (walker sampleWorld 1 needle11 2 tarModeState).2.tarFh =
          some { file := none, calls := [] ++ TarCall.WriteHeader hdr ::
            (if sampleWorld.writeHeader { file := none, calls := [] } hdr = none
              then [TarCall.Write needle11.Data] else []) } ∧
        hdr.Size = (needle11.Data.length : Int) ∧
        hdr.ModTime =
          (if needle11.HasLastModifiedDate = true
            then Time.Unix (toInt64 needle11.LastModified.val) 0
           else Time.Unix 0 0) ∧
        (needle11.HasLastModifiedDate = true →
          needle11.LastModified.val < 9223372036854775808 →
          hdr.ModTime = Time.Unix (needle11.LastModified.val : Int) 0) ∧
        hdr.Name = (if needle11.IsGzipped = false ∨ Ext "text/plain/d.txt" = ".gz"
          then "text/plain/d.txt" else "text/plain/d.txt" ++ ".gz") ∧
        (needle11.IsGzipped = true → Ext hdr.Name = ".gz") ∧
        (needle11.IsGzipped = false → hdr.Name = "text/plain/d.txt") :=
  ⟨rfl, rfl, by decide,
    tar_entry_framing sampleWorld 1 needle11 2 tarModeState { file := none, calls := [] }
      { src := defaultFnFormat } "text/plain/d.txt" rfl rfl (by decide)⟩

end Seaweed
